import Mathlib

/-
Verification of the teacup JSON-RPC debugging proxy (Go sources:
proxy.go, rpc.go, main.go, broker file) against its specification.

The Go sources are shallowly embedded below. Conventions of the embedding:
  - Go int64 becomes Int, timestamps (time.Time pointers obtained from the
    now() helper) become Option Nat ticks supplied by the caller; only
    presence or absence of a timestamp matters to the claims.
  - Go pointers to json.RawMessage become Option String (none = nil
    pointer, some s = the raw bytes s).
  - Go map[int64]*Event becomes an association list List (Int × Nat) whose
    values are indices into the append-only Broker.Events list; the Go maps
    hold pointers into the same event log, and index sharing models the
    pointer sharing (mutating an event through a map pointer is List.set at
    the shared index).
  - json.Unmarshal is an external library call; a wire frame is therefore
    carried together with its parse outcome (Frame.parsed), and the decode
    of the Proxy.Connect params is a function parameter. Theorems quantify
    over these outcomes.
  - Rendering (Broker.Updated, Broker.Delta, colors, LastActivity) writes
    to the console only and never changes tracked state; it is modelled
    separately by Event.String / fmtRenderValue. The Go fmt package
    recovers a panic raised inside a String method and substitutes a
    placeholder, which fmtRenderValue reproduces.
-/

namespace Teacup

/-! ### Association list model of the Go map[int64]*Event -/

/-- Lookup in an association list; models indexing a Go map (first match,
and keys are kept unique by mapInsert just as Go map keys are unique). -/
def mapLookup (m : List (Int × Nat)) (k : Int) : Option Nat :=
  match m with
  | [] => none
  | (k2, v) :: rest => if k2 = k then some v else mapLookup rest k

/-- Insert or replace a key; models Go map assignment m[k] = v. -/
def mapInsert (m : List (Int × Nat)) (k : Int) (v : Nat) : List (Int × Nat) :=
  match m with
  | [] => [(k, v)]
  | (k2, v2) :: rest => if k2 = k then (k, v) :: rest else (k2, v2) :: mapInsert rest k v

/-- Remove a key; models the Go builtin delete(m, k). -/
def mapErase (m : List (Int × Nat)) (k : Int) : List (Int × Nat) :=
  match m with
  | [] => []
  | (k2, v2) :: rest => if k2 = k then mapErase rest k else (k2, v2) :: mapErase rest k

/-! ### Data model, from rpc.go and the broker source file -/

/-- RpcError from rpc.go: code, message, optional data payload. -/
structure RpcError where
  Code : Int
  Message : String
  Data : Option String
deriving DecidableEq, Inhabited

/-- RpcMessage from rpc.go: the JSON-RPC wire envelope. Params, Result
model the *json.RawMessage pointers (none = nil). -/
structure RpcMessage where
  JSONRPC : String
  ID : Int
  Method : String
  Params : Option String
  Result : Option String
  Error : Option RpcError
deriving DecidableEq, Inhabited

/-- One newline-delimited wire frame: the raw text produced by the line
scanner, together with the outcome of json.Unmarshal on it (none when
unmarshalling fails). -/
structure Frame where
  raw : String
  parsed : Option RpcMessage
deriving DecidableEq, Inhabited

/-- EventKind from the broker source: request or notification. -/
inductive EventKind where
  | request
  | notification
deriving DecidableEq, Inhabited

/-- EventStatus from the broker source. -/
inductive EventStatus where
  | pending
  | completed
  | errored
  | cancelled
deriving DecidableEq, Inhabited

/-- Event from the broker source. EndTime models the End field (the Go
name End is a Lean keyword). The Broker back-pointer and the unused Raw
field are omitted; sharing is modelled by indices into Broker.Events. -/
structure Event where
  ID : Int
  Method : String
  Start : Option Nat
  EndTime : Option Nat
  Kind : EventKind
  Inbound : Bool
  Status : EventStatus
  Error : Option RpcError
  Params : Option String
  Result : Option String
deriving DecidableEq, Inhabited

/-- Broker from the broker source. Color and LastActivity are rendering
cosmetics with no effect on tracked state and are omitted. The two pending
maps hold indices into Events (Go: pointers to the shared Event values). -/
structure Broker where
  Name : String
  InboundRequests : List (Int × Nat)
  OutboundRequests : List (Int × Nat)
  Events : List Event
deriving DecidableEq, Inhabited

/-- newBroker from the broker source: empty maps, empty event log. -/
def newBroker (name : String) : Broker :=
  { Name := name, InboundRequests := [], OutboundRequests := [], Events := [] }

/-- The event stored at index i of the log (meaningful for i below the log
length; Go accesses these through always-valid pointers). -/
def eventAt (b : Broker) (i : Nat) : Event :=
  b.Events.getD i default

/-! ### Broker operations, from the broker source file -/

/-- Broker.GetRequest: pick the pending map named by the inbound flag and
index it; a missing key gives the Go nil pointer, modelled as none. -/
def Broker.GetRequest (b : Broker) (inbound : Bool) (id : Int) : Option Nat :=
  if inbound then mapLookup b.InboundRequests id else mapLookup b.OutboundRequests id

/-- Broker.Landed: delete the event entry from the pending map matching
the direction of the event itself. -/
def Broker.Landed (b : Broker) (ev : Event) : Broker :=
  if ev.Inbound then { b with InboundRequests := mapErase b.InboundRequests ev.ID }
  else { b with OutboundRequests := mapErase b.OutboundRequests ev.ID }

/-- Event.AddTo: append the event to the log; when it is a request, also
put it in the pending map of its direction (Go map assignment replaces any
previous entry for the same ID). The Broker.Updated call in the source
only renders to the console and is modelled separately. -/
def Event.AddTo (ev : Event) (b : Broker) : Broker :=
  let idx := b.Events.length
  let b2 := { b with Events := b.Events ++ [ev] }
  if ev.Kind = EventKind.request then
    if ev.Inbound then { b2 with InboundRequests := mapInsert b2.InboundRequests ev.ID idx }
    else { b2 with OutboundRequests := mapInsert b2.OutboundRequests ev.ID idx }
  else b2

/-- Event.RecordCompletion, acting on the event at index idx of the log
(the Go method mutates the event through its pointer): set End, Result,
Status completed, then Broker.Landed removes it from its pending map. The
trailing Broker.Updated render call changes no tracked state. -/
def Broker.RecordCompletion (b : Broker) (idx : Nat) (result : Option String) (t : Nat) : Broker :=
  match b.Events[idx]? with
  | none => b
  | some ev =>
    let ev2 := { ev with EndTime := some t, Result := result, Status := EventStatus.completed }
    Broker.Landed { b with Events := b.Events.set idx ev2 } ev2

/-- Event.RecordError: set End, Error, Status errored, then Landed. -/
def Broker.RecordError (b : Broker) (idx : Nat) (e : RpcError) (t : Nat) : Broker :=
  match b.Events[idx]? with
  | none => b
  | some ev =>
    let ev2 := { ev with EndTime := some t, Error := some e, Status := EventStatus.errored }
    Broker.Landed { b with Events := b.Events.set idx ev2 } ev2

/-- Event.RecordCancellation: set End, Status cancelled, then Landed. -/
def Broker.RecordCancellation (b : Broker) (idx : Nat) (t : Nat) : Broker :=
  match b.Events[idx]? with
  | none => b
  | some ev =>
    let ev2 := { ev with EndTime := some t, Status := EventStatus.cancelled }
    Broker.Landed { b with Events := b.Events.set idx ev2 } ev2

/-- Cancel the events at the given log indices in order; used to model the
range loops of Broker.Retire over a snapshot of the map entries (each
cancellation deletes only its own entry, so the snapshot iteration matches
the Go range-with-delete semantics on reachable states). -/
def cancelAll (idxs : List Nat) (b : Broker) (t : Nat) : Broker :=
  match idxs with
  | [] => b
  | i :: rest => cancelAll rest (Broker.RecordCancellation b i t) t

/-- Broker.Retire: cancel every request still in the inbound pending map,
then every request still in the outbound pending map. -/
def Broker.Retire (b : Broker) (t : Nat) : Broker :=
  let b1 := cancelAll (b.InboundRequests.map Prod.snd) b t
  cancelAll (b1.OutboundRequests.map Prod.snd) b1 t

/-! ### Message processing and relay loop, from proxy.go handleConn -/

/-- The notification event built by processMessage for a frame with ID 0
(Go leaves the ID field at its zero value). -/
def notifEvent (msg : RpcMessage) (inbound : Bool) (t : Nat) : Event :=
  { ID := 0, Method := msg.Method, Start := some t, EndTime := none,
    Kind := EventKind.notification, Inbound := inbound,
    Status := EventStatus.completed, Error := none,
    Params := msg.Params, Result := none }

/-- The fresh pending request event built by processMessage for a frame
with a nonzero ID and a method. -/
def requestEvent (msg : RpcMessage) (inbound : Bool) (t : Nat) : Event :=
  { ID := msg.ID, Method := msg.Method, Start := some t, EndTime := none,
    Kind := EventKind.request, Inbound := inbound,
    Status := EventStatus.pending, Error := none,
    Params := msg.Params, Result := none }

/-- processMessage from proxy.go: on unmarshal failure do nothing; ID 0
gives a notification recorded as completed immediately; a nonzero ID with
a method gives a fresh pending request; otherwise the frame is a response,
looked up in the pending map of the opposite direction, resolving to
errored when the Error field is set, completed otherwise; an unknown ID
changes nothing. -/
def processMessage (b : Broker) (inbound : Bool) (t : Nat) (fr : Frame) : Broker :=
  match fr.parsed with
  | none => b
  | some msg =>
    if msg.ID = 0 then
      Event.AddTo (notifEvent msg inbound t) b
    else if msg.Method = "" then
      match Broker.GetRequest b (!inbound) msg.ID with
      | none => b
      | some idx =>
        match msg.Error with
        | some e => Broker.RecordError b idx e t
        | none => Broker.RecordCompletion b idx msg.Result t
    else
      Event.AddTo (requestEvent msg inbound t) b

/-- Run processMessage over a sequence of arrivals; the Bool is the Go
inbound flag (true = the frame arrived from the server side), the clock
ticks once per frame. -/
def runMessages (b : Broker) (t : Nat) : List (Bool × Frame) → Broker
  | [] => b
  | (d, fr) :: rest => runMessages (processMessage b d t fr) (t + 1) rest

/-! ### Buffered writer model, from proxy.go (bufio.Writer usage) -/

/-- A bufio.Writer: chunks written but not yet flushed, and the chunks
already flushed to the connection. The out list is the exact sequence of
write calls that reached the wire, so list equality fixes both the bytes
and their order. -/
structure BufWriter where
  buffered : List String
  out : List String
deriving DecidableEq, Inhabited

/-- WriteString or Write: append one chunk to the buffer. -/
def BufWriter.write (w : BufWriter) (s : String) : BufWriter :=
  { w with buffered := w.buffered ++ [s] }

/-- Flush: move all buffered chunks to the wire. -/
def BufWriter.flush (w : BufWriter) : BufWriter :=
  { buffered := [], out := w.out ++ w.buffered }

/-- sendLine from proxy.go: WriteString the line, WriteByte a newline,
Flush; any failure would be returned to the caller (write failures are
transport faults external to this model). -/
def sendLine (w : BufWriter) (line : String) : BufWriter :=
  BufWriter.flush (BufWriter.write (BufWriter.write w line) "\n")

/-- replyError from proxy.go handleConn, at the writer level: Write the
marshalled error message payload, then Flush. The source writes no
newline byte on this path. -/
def replyError (w : BufWriter) (payload : String) : BufWriter :=
  BufWriter.flush (BufWriter.write w payload)

/-- The Proxy.Connect success reply writes of proxy.go handleConn: Write
the marshalled response, WriteByte a newline, Flush. -/
def writeConnectResponse (w : BufWriter) (payload : String) : BufWriter :=
  BufWriter.flush (BufWriter.write (BufWriter.write w payload) "\n")

/-- State of the steady relay loop: the broker plus the two buffered
writers (toward the client and toward the server). -/
structure RelayState where
  broker : Broker
  clientW : BufWriter
  serverW : BufWriter
deriving DecidableEq, Inhabited

/-- One iteration of the select loop of proxy.go handleConn: a frame
arriving from the server (inbound = true) is processed and its raw text is
sent to the client; a frame from the client is processed and sent to the
server. -/
def relayStep (st : RelayState) (t : Nat) (d : Bool) (fr : Frame) : RelayState :=
  let b := processMessage st.broker d t fr
  if d then { broker := b, clientW := sendLine st.clientW fr.raw, serverW := st.serverW }
  else { broker := b, clientW := st.clientW, serverW := sendLine st.serverW fr.raw }

/-- The relay loop over a finite arrival interleaving. Per-direction FIFO
order of the Go channels is reflected by the order of the list. -/
def relayRun (st : RelayState) (t : Nat) : List (Bool × Frame) → RelayState
  | [] => st
  | (d, fr) :: rest => relayRun (relayStep st t d fr) (t + 1) rest

/-- The chunk sequence that the relay loop emits toward the side selected
by d for a given arrival interleaving: each frame from the other side,
verbatim, followed by a newline chunk, in arrival order. -/
def framesChunks (d : Bool) : List (Bool × Frame) → List String
  | [] => []
  | (d0, fr) :: rest =>
    if d0 = d then fr.raw :: "\n" :: framesChunks d rest else framesChunks d rest

/-! ### Handshake, from proxy.go handleConn lines 56 to 168 -/

def RpcCodeParseError : Int := -32700
def RpcCodeInvalidRequest : Int := -32600
def RpcCodeMethodNotFound : Int := -32601
def RpcCodeInvalidParams : Int := -32602
def RpcCodeInternalError : Int := -32603

/-- Outcome of the handshake phase of handleConn. -/
inductive HsOutcome where
  /-- No first frame within the one second wait: log and return. -/
  | timeout
  /-- Unmarshal failure or version tag mismatch: log and return, with no
  reply written to the client. -/
  | abortSilent
  /-- replyError was called with the given code, then handleConn
  returned. -/
  | replyAbort (code : Int)
  /-- The source dereferences the nil Params pointer of the connect
  request and the goroutine panics. -/
  | panicNilParams
  /-- Success reply written; handleConn proceeds to the relay loop toward
  the given address. -/
  | proceed (addr : String)
deriving DecidableEq, Inhabited

/-- Result of the handshake phase: its outcome plus the address passed to
net.DialTimeout when a dial was attempted. -/
structure HsResult where
  outcome : HsOutcome
  dialed : Option String
deriving DecidableEq, Inhabited

/-- The error code replyError was invoked with, recoverable from the
outcome; none when no reply was written. -/
def replyWritten : HsOutcome → Option Int
  | HsOutcome.replyAbort c => some c
  | _ => none

/-- The handshake phase of handleConn. firstFrame is none when no line
arrived within the timeout. decodeAddr models json.Unmarshal of the raw
params bytes into ProxyConnectParams followed by reading its Address field
(none = unmarshal error). dialOk models whether net.DialTimeout to the
address succeeds. The source checks, in order: unmarshal of the frame,
the jsonrpc version tag (log only, no reply), the method name (reply
-32600), then dereferences connectReq.Params unconditionally (a nil
pointer panics), decodes the params (reply -32602 on failure), and dials
(reply -32603 on failure). -/
def handshake (firstFrame : Option Frame) (decodeAddr : String → Option String)
    (dialOk : String → Bool) : HsResult :=
  match firstFrame with
  | none => { outcome := HsOutcome.timeout, dialed := none }
  | some fr =>
    match fr.parsed with
    | none => { outcome := HsOutcome.abortSilent, dialed := none }
    | some req =>
      if req.JSONRPC ≠ "2.0" then { outcome := HsOutcome.abortSilent, dialed := none }
      else if req.Method ≠ "Proxy.Connect" then
        { outcome := HsOutcome.replyAbort RpcCodeInvalidRequest, dialed := none }
      else
        match req.Params with
        | none => { outcome := HsOutcome.panicNilParams, dialed := none }
        | some p =>
          match decodeAddr p with
          | none => { outcome := HsOutcome.replyAbort RpcCodeInvalidParams, dialed := none }
          | some addr =>
            if dialOk addr then { outcome := HsOutcome.proceed addr, dialed := some addr }
            else { outcome := HsOutcome.replyAbort RpcCodeInternalError, dialed := some addr }

/-! ### Rendering, from the broker source file -/

/-- trim from the broker source: cut a preview longer than 60 characters
to 60 and add an ellipsis marker. -/
def trim (s : String) : String :=
  if s.length > 60 then s.take 60 ++ "..." else s

/-- trimJSON from the broker source: nil payload renders as a slashed
zero. -/
def trimJSON (msg : Option String) : String :=
  match msg with
  | none => "Ø"
  | some bs => trim bs

/-- Event.Duration, in clock ticks: end minus start for a request with
both timestamps, zero otherwise and for notifications. -/
def Event.Duration (ev : Event) : Nat :=
  match ev.Kind with
  | EventKind.request =>
    match ev.Start, ev.EndTime with
    | some s, some e => e - s
    | _, _ => 0
  | EventKind.notification => 0

/-- Event.String from the broker source. none models a panic raised
inside the method: the errored arm reads Error.Message through a possibly
nil pointer, and the Log notification arm unmarshals through the possibly
nil Params pointer. decodeLogMessage models the json.Unmarshal of the Log
params into the level and message struct (its error is discarded by the
source, so a decode failure just yields the zero-value message). -/
def Event.String (decodeLogMessage : String → String) (ev : Event) : Option String :=
  match ev.Kind with
  | EventKind.request =>
    match ev.Status with
    | EventStatus.pending =>
      some ("• [" ++ toString ev.ID ++ "] " ++ ev.Method ++ " " ++ trimJSON ev.Params)
    | EventStatus.completed =>
      some ("✔ [" ++ toString ev.ID ++ "] " ++ ev.Method ++ " (" ++ toString (Event.Duration ev)
        ++ ") " ++ trimJSON ev.Result)
    | EventStatus.errored =>
      match ev.Error with
      | none => none
      | some e =>
        some ("✕ [" ++ toString ev.ID ++ "] " ++ ev.Method ++ " (" ++ toString (Event.Duration ev)
          ++ ") " ++ trim e.Message)
    | EventStatus.cancelled =>
      some ("⚐ [" ++ toString ev.ID ++ "] " ++ ev.Method ++ " (" ++ toString (Event.Duration ev)
        ++ ")")
  | EventKind.notification =>
    if ev.Method = "Log" then
      match ev.Params with
      | none => none
      | some p => some ("# " ++ decodeLogMessage p)
    else
      some ("- " ++ ev.Method ++ " " ++ trimJSON ev.Params)

/-- The placeholder the Go fmt package substitutes when a String method
panics while a value is being formatted (fmt documents that it recovers
such panics and keeps printing). -/
def fmtPanicPlaceholder : String :=
  "%!s(PANIC=String method: runtime error: invalid memory address or nil pointer dereference)"

/-- What Broker.Updated actually prints for the event slot of its format
string: the String method output, or the recovered-panic placeholder.
The surrounding goroutine keeps running either way. -/
def fmtRenderValue (decodeLogMessage : String → String) (ev : Event) : String :=
  match Event.String decodeLogMessage ev with
  | some s => s
  | none => fmtPanicPlaceholder

/-! ### Lemmas about the association list map model -/

theorem mapLookup_mapInsert_self (m : List (Int × Nat)) (k : Int) (v : Nat) :
    mapLookup (mapInsert m k v) k = some v := by
  induction m with
  | nil => simp [mapInsert, mapLookup]
  | cons hd tl ih =>
    obtain ⟨k2, v2⟩ := hd
    by_cases h : k2 = k
    · simp [mapInsert, h, mapLookup]
    · simp [mapInsert, h, mapLookup, ih]

theorem mapLookup_mapInsert_ne (m : List (Int × Nat)) (k : Int) (v : Nat) (k2 : Int)
    (h : k2 ≠ k) : mapLookup (mapInsert m k v) k2 = mapLookup m k2 := by
  have hks : ¬ k = k2 := fun hh => h hh.symm
  induction m with
  | nil => simp [mapInsert, mapLookup, hks]
  | cons hd tl ih =>
    obtain ⟨k3, v3⟩ := hd
    by_cases h3 : k3 = k
    · subst h3
      simp [mapInsert, mapLookup, hks]
    · by_cases h32 : k3 = k2
      · subst h32
        simp [mapInsert, h3, mapLookup]
      · simp [mapInsert, h3, mapLookup, h32, ih]

theorem mapLookup_mapErase_self (m : List (Int × Nat)) (k : Int) :
    mapLookup (mapErase m k) k = none := by
  induction m with
  | nil => simp [mapErase, mapLookup]
  | cons hd tl ih =>
    obtain ⟨k2, v2⟩ := hd
    by_cases h : k2 = k
    · simp [mapErase, h, ih]
    · simp [mapErase, h, mapLookup, ih]

theorem mapLookup_mapErase_ne (m : List (Int × Nat)) (k : Int) (k2 : Int) (h : k2 ≠ k) :
    mapLookup (mapErase m k) k2 = mapLookup m k2 := by
  have hks : ¬ k = k2 := fun hh => h hh.symm
  induction m with
  | nil => simp [mapErase]
  | cons hd tl ih =>
    obtain ⟨k3, v3⟩ := hd
    by_cases h3 : k3 = k
    · subst h3
      simp [mapErase, mapLookup, hks, ih]
    · by_cases h32 : k3 = k2
      · subst h32
        simp [mapErase, h3, mapLookup]
      · simp [mapErase, h3, mapLookup, h32, ih]

theorem mem_of_mapLookup (m : List (Int × Nat)) (k : Int) (v : Nat)
    (h : mapLookup m k = some v) : (k, v) ∈ m := by
  induction m with
  | nil => simp [mapLookup] at h
  | cons hd tl ih =>
    obtain ⟨k2, v2⟩ := hd
    by_cases h2 : k2 = k
    · subst h2
      simp [mapLookup] at h
      simp [h]
    · simp [mapLookup, h2] at h
      exact List.mem_cons_of_mem _ (ih h)

theorem mapLookup_eq_none_iff (m : List (Int × Nat)) (k : Int) :
    mapLookup m k = none ↔ k ∉ m.map Prod.fst := by
  induction m with
  | nil => simp [mapLookup]
  | cons hd tl ih =>
    obtain ⟨k2, v2⟩ := hd
    by_cases h2 : k2 = k
    · subst h2
      simp [mapLookup]
    · have hne : ¬ k = k2 := fun hh => h2 hh.symm
      simp [mapLookup, h2, ih, hne]

theorem mem_mapInsert (m : List (Int × Nat)) (k : Int) (v : Nat) (p : Int × Nat)
    (h : p ∈ mapInsert m k v) : p = (k, v) ∨ p ∈ m := by
  induction m with
  | nil => simp [mapInsert] at h; simp [h]
  | cons hd tl ih =>
    obtain ⟨k2, v2⟩ := hd
    by_cases h2 : k2 = k
    · subst h2
      simp [mapInsert] at h
      rcases h with h | h
      · left; simp [h]
      · right; exact List.mem_cons_of_mem _ h
    · simp [mapInsert, h2] at h
      rcases h with h | h
      · right; simp [h]
      · rcases ih h with h3 | h3
        · left; exact h3
        · right; exact List.mem_cons_of_mem _ h3

theorem mem_mapErase (m : List (Int × Nat)) (k : Int) (p : Int × Nat)
    (h : p ∈ mapErase m k) : p ∈ m ∧ p.1 ≠ k := by
  induction m with
  | nil => simp [mapErase] at h
  | cons hd tl ih =>
    obtain ⟨k2, v2⟩ := hd
    by_cases h2 : k2 = k
    · subst h2
      simp [mapErase] at h
      rcases ih h with ⟨h3, h4⟩
      exact ⟨List.mem_cons_of_mem _ h3, h4⟩
    · simp [mapErase, h2] at h
      rcases h with h | h
      · refine ⟨by simp [h], ?_⟩
        rw [h]
        exact h2
      · rcases ih h with ⟨h3, h4⟩
        exact ⟨List.mem_cons_of_mem _ h3, h4⟩

theorem mem_keys_mapInsert (m : List (Int × Nat)) (k : Int) (v : Nat) (x : Int)
    (h : x ∈ (mapInsert m k v).map Prod.fst) : x = k ∨ x ∈ m.map Prod.fst := by
  rcases List.mem_map.mp h with ⟨p, hp, hpx⟩
  rcases mem_mapInsert m k v p hp with h2 | h2
  · left
    rw [h2] at hpx
    exact hpx.symm
  · right
    exact List.mem_map.mpr ⟨p, h2, hpx⟩

theorem mem_keys_mapErase (m : List (Int × Nat)) (k : Int) (x : Int)
    (h : x ∈ (mapErase m k).map Prod.fst) : x ∈ m.map Prod.fst := by
  rcases List.mem_map.mp h with ⟨p, hp, hpx⟩
  exact List.mem_map.mpr ⟨p, (mem_mapErase m k p hp).1, hpx⟩

theorem keys_nodup_mapInsert (m : List (Int × Nat)) (k : Int) (v : Nat)
    (h : (m.map Prod.fst).Nodup) : ((mapInsert m k v).map Prod.fst).Nodup := by
  induction m with
  | nil => simp [mapInsert]
  | cons hd tl ih =>
    obtain ⟨k2, v2⟩ := hd
    rw [List.map_cons, List.nodup_cons] at h
    by_cases h2 : k2 = k
    · subst h2
      have e1 : mapInsert ((k2, v2) :: tl) k2 v = (k2, v) :: tl := by simp [mapInsert]
      rw [e1, List.map_cons, List.nodup_cons]
      exact h
    · simp only [mapInsert, if_neg h2, List.map_cons, List.nodup_cons]
      refine ⟨?_, ih h.2⟩
      intro hmem
      rcases mem_keys_mapInsert tl k v k2 hmem with h3 | h3
      · exact h2 h3
      · exact h.1 h3

theorem keys_nodup_mapErase (m : List (Int × Nat)) (k : Int)
    (h : (m.map Prod.fst).Nodup) : ((mapErase m k).map Prod.fst).Nodup := by
  induction m with
  | nil => simp [mapErase]
  | cons hd tl ih =>
    obtain ⟨k2, v2⟩ := hd
    rw [List.map_cons, List.nodup_cons] at h
    by_cases h2 : k2 = k
    · subst h2
      have e1 : mapErase ((k2, v2) :: tl) k2 = mapErase tl k2 := by simp [mapErase]
      rw [e1]
      exact ih h.2
    · simp only [mapErase, if_neg h2, List.map_cons, List.nodup_cons]
      exact ⟨fun hm => h.1 (mem_keys_mapErase tl k k2 hm), ih h.2⟩

theorem mapErase_of_not_mem_keys (m : List (Int × Nat)) (k : Int)
    (h : k ∉ m.map Prod.fst) : mapErase m k = m := by
  induction m with
  | nil => simp [mapErase]
  | cons hd tl ih =>
    obtain ⟨k2, v2⟩ := hd
    rw [List.map_cons, List.mem_cons] at h
    push_neg at h
    have hne : ¬ k2 = k := fun hh => h.1 hh.symm
    simp [mapErase, hne, ih h.2]

theorem mapErase_cons_self (m : List (Int × Nat)) (k : Int) (v : Nat)
    (h : k ∉ m.map Prod.fst) : mapErase ((k, v) :: m) k = m := by
  simp [mapErase, mapErase_of_not_mem_keys m k h]

/-! ### Lemmas about getD on lists -/

theorem getD_append_lt {α : Type} [Inhabited α] (l : List α) (x : α) (i : Nat)
    (h : i < l.length) : (l ++ [x]).getD i default = l.getD i default := by
  induction l generalizing i with
  | nil => simp at h
  | cons a tl ih =>
    cases i with
    | zero => simp
    | succ n =>
      simp only [List.cons_append, List.getD_cons_succ]
      exact ih n (by simpa using h)

theorem getD_append_self {α : Type} [Inhabited α] (l : List α) (x : α) :
    (l ++ [x]).getD l.length default = x := by
  induction l with
  | nil => simp
  | cons a tl ih =>
    simp only [List.cons_append, List.length_cons, List.getD_cons_succ]
    exact ih

theorem getD_set_self {α : Type} [Inhabited α] (l : List α) (i : Nat) (x : α)
    (h : i < l.length) : (l.set i x).getD i default = x := by
  induction l generalizing i with
  | nil => simp at h
  | cons a tl ih =>
    cases i with
    | zero => simp
    | succ n =>
      simp only [List.set_cons_succ, List.getD_cons_succ]
      exact ih n (by simpa using h)

theorem getD_set_ne {α : Type} [Inhabited α] (l : List α) (i j : Nat) (x : α)
    (h : i ≠ j) : (l.set i x).getD j default = l.getD j default := by
  induction l generalizing i j with
  | nil => simp
  | cons a tl ih =>
    cases i with
    | zero =>
      cases j with
      | zero => exact absurd rfl h
      | succ n => simp
    | succ n =>
      cases j with
      | zero => simp
      | succ n2 =>
        simp only [List.set_cons_succ, List.getD_cons_succ]
        exact ih n n2 (by omega)

theorem getElem?_eq_some_getD {α : Type} [Inhabited α] (l : List α) (i : Nat)
    (h : i < l.length) : l[i]? = some (l.getD i default) := by
  rw [List.getElem?_eq_getElem h, List.getD_eq_getElem l default h]

/-! ### Invariants of the broker state -/

/-- A pending-map entry is well formed with respect to an event log when
its index is in range and the indexed event carries the entry key as its
ID, lies in the direction of the map holding the entry, and is a pending
request. -/
def entryWFL (es : List Event) (inbound : Bool) (p : Int × Nat) : Prop :=
  p.2 < es.length ∧ (es.getD p.2 default).ID = p.1 ∧
    (es.getD p.2 default).Inbound = inbound ∧
    (es.getD p.2 default).Kind = EventKind.request ∧
    (es.getD p.2 default).Status = EventStatus.pending

/-- Structural well-formedness of a broker: every entry of either pending
map points at a pending request of the matching direction carrying the
entry key as its ID, and neither map has a duplicate key. -/
def BrokerWF (b : Broker) : Prop :=
  (∀ p ∈ b.InboundRequests, entryWFL b.Events true p) ∧
  (∀ p ∈ b.OutboundRequests, entryWFL b.Events false p) ∧
  (b.InboundRequests.map Prod.fst).Nodup ∧
  (b.OutboundRequests.map Prod.fst).Nodup

/-- Every pending request in the log is found in the pending map of its
own direction, under its own ID, at its own index. -/
def PendingMapped (b : Broker) : Prop :=
  ∀ i, i < b.Events.length → (eventAt b i).Kind = EventKind.request →
    (eventAt b i).Status = EventStatus.pending →
    mapLookup (if (eventAt b i).Inbound then b.InboundRequests else b.OutboundRequests)
      (eventAt b i).ID = some i

/-- Notifications are finalized at creation: every notification in the
log is completed. -/
def NotifCompleted (b : Broker) : Prop :=
  ∀ i, i < b.Events.length → (eventAt b i).Kind = EventKind.notification →
    (eventAt b i).Status = EventStatus.completed

/-- The reachable-state invariant of one connection ledger. -/
def Inv (b : Broker) : Prop := BrokerWF b ∧ PendingMapped b ∧ NotifCompleted b

/-- A frame is a same-direction ID reuse when it is a fresh request whose
ID is already pending in the map of the direction it arrives on. -/
def isReuse (b : Broker) (inbound : Bool) (fr : Frame) : Bool :=
  match fr.parsed with
  | none => false
  | some msg =>
    if msg.ID = 0 then false
    else if msg.Method = "" then false
    else (Broker.GetRequest b inbound msg.ID).isSome

/-- No frame of the sequence reuses a same-direction ID that is still
pending at the moment the frame is processed. -/
def reuseFree (b : Broker) (t : Nat) : List (Bool × Frame) → Bool
  | [] => true
  | (d, fr) :: rest => !isReuse b d fr && reuseFree (processMessage b d t fr) (t + 1) rest

/-! ### Shape lemmas for the broker operations -/

theorem processMessage_parseFail (b : Broker) (d : Bool) (t : Nat) (fr : Frame)
    (h : fr.parsed = none) : processMessage b d t fr = b := by
  simp [processMessage, h]

theorem processMessage_notif (b : Broker) (d : Bool) (t : Nat) (fr : Frame) (msg : RpcMessage)
    (hp : fr.parsed = some msg) (h0 : msg.ID = 0) :
    processMessage b d t fr = Event.AddTo (notifEvent msg d t) b := by
  simp [processMessage, hp, h0]

theorem processMessage_request (b : Broker) (d : Bool) (t : Nat) (fr : Frame) (msg : RpcMessage)
    (hp : fr.parsed = some msg) (h0 : msg.ID ≠ 0) (hm : msg.Method ≠ "") :
    processMessage b d t fr = Event.AddTo (requestEvent msg d t) b := by
  simp [processMessage, hp, h0, hm]

theorem processMessage_response_none (b : Broker) (d : Bool) (t : Nat) (fr : Frame)
    (msg : RpcMessage) (hp : fr.parsed = some msg) (h0 : msg.ID ≠ 0) (hm : msg.Method = "")
    (hl : Broker.GetRequest b (!d) msg.ID = none) : processMessage b d t fr = b := by
  simp [processMessage, hp, h0, hm, hl]

theorem processMessage_response_error (b : Broker) (d : Bool) (t : Nat) (fr : Frame)
    (msg : RpcMessage) (idx : Nat) (e : RpcError) (hp : fr.parsed = some msg)
    (h0 : msg.ID ≠ 0) (hm : msg.Method = "")
    (hl : Broker.GetRequest b (!d) msg.ID = some idx) (he : msg.Error = some e) :
    processMessage b d t fr = Broker.RecordError b idx e t := by
  simp [processMessage, hp, h0, hm, hl, he]

theorem processMessage_response_completed (b : Broker) (d : Bool) (t : Nat) (fr : Frame)
    (msg : RpcMessage) (idx : Nat) (hp : fr.parsed = some msg)
    (h0 : msg.ID ≠ 0) (hm : msg.Method = "")
    (hl : Broker.GetRequest b (!d) msg.ID = some idx) (he : msg.Error = none) :
    processMessage b d t fr = Broker.RecordCompletion b idx msg.Result t := by
  simp [processMessage, hp, h0, hm, hl, he]

/-- The field updates Event.RecordCompletion applies to its event. -/
def completedOf (ev : Event) (res : Option String) (t : Nat) : Event :=
  { ev with EndTime := some t, Result := res, Status := EventStatus.completed }

/-- The field updates Event.RecordError applies to its event. -/
def erroredOf (ev : Event) (e : RpcError) (t : Nat) : Event :=
  { ev with EndTime := some t, Error := some e, Status := EventStatus.errored }

/-- The field updates Event.RecordCancellation applies to its event. -/
def cancelledOf (ev : Event) (t : Nat) : Event :=
  { ev with EndTime := some t, Status := EventStatus.cancelled }

theorem AddTo_notif_eq (ev : Event) (b : Broker) (hk : ev.Kind = EventKind.notification) :
    Event.AddTo ev b = { b with Events := b.Events ++ [ev] } := by
  simp [Event.AddTo, hk]

theorem AddTo_request_eq_in (ev : Event) (b : Broker) (hk : ev.Kind = EventKind.request)
    (hi : ev.Inbound = true) :
    Event.AddTo ev b = { b with Events := b.Events ++ [ev], InboundRequests := mapInsert b.InboundRequests ev.ID b.Events.length } := by
  simp [Event.AddTo, hk, hi]

theorem AddTo_request_eq_out (ev : Event) (b : Broker) (hk : ev.Kind = EventKind.request)
    (hi : ev.Inbound = false) :
    Event.AddTo ev b = { b with Events := b.Events ++ [ev], OutboundRequests := mapInsert b.OutboundRequests ev.ID b.Events.length } := by
  simp [Event.AddTo, hk, hi]

theorem Landed_in (b : Broker) (ev : Event) (h : ev.Inbound = true) :
    Broker.Landed b ev = { b with InboundRequests := mapErase b.InboundRequests ev.ID } := by
  simp [Broker.Landed, h]

theorem Landed_out (b : Broker) (ev : Event) (h : ev.Inbound = false) :
    Broker.Landed b ev = { b with OutboundRequests := mapErase b.OutboundRequests ev.ID } := by
  simp [Broker.Landed, h]

theorem RecordCompletion_eq (b : Broker) (idx : Nat) (res : Option String) (t : Nat)
    (h : idx < b.Events.length) :
    Broker.RecordCompletion b idx res t =
      Broker.Landed { b with Events := b.Events.set idx (completedOf (eventAt b idx) res t) }
        (completedOf (eventAt b idx) res t) := by
  unfold Broker.RecordCompletion
  rw [getElem?_eq_some_getD b.Events idx h]
  rfl

theorem RecordError_eq (b : Broker) (idx : Nat) (e : RpcError) (t : Nat)
    (h : idx < b.Events.length) :
    Broker.RecordError b idx e t =
      Broker.Landed { b with Events := b.Events.set idx (erroredOf (eventAt b idx) e t) }
        (erroredOf (eventAt b idx) e t) := by
  unfold Broker.RecordError
  rw [getElem?_eq_some_getD b.Events idx h]
  rfl

theorem RecordCancellation_eq (b : Broker) (idx : Nat) (t : Nat)
    (h : idx < b.Events.length) :
    Broker.RecordCancellation b idx t =
      Broker.Landed { b with Events := b.Events.set idx (cancelledOf (eventAt b idx) t) }
        (cancelledOf (eventAt b idx) t) := by
  unfold Broker.RecordCancellation
  rw [getElem?_eq_some_getD b.Events idx h]
  rfl

theorem entryWFL_append (es : List Event) (x : Event) (d : Bool) (p : Int × Nat)
    (h : entryWFL es d p) : entryWFL (es ++ [x]) d p := by
  obtain ⟨h1, h2, h3, h4, h5⟩ := h
  refine ⟨by simp; omega, ?_, ?_, ?_, ?_⟩ <;>
    rw [getD_append_lt es x p.2 h1] <;> assumption

theorem entryWFL_set_ne (es : List Event) (i : Nat) (x : Event) (d : Bool) (p : Int × Nat)
    (h : entryWFL es d p) (hne : i ≠ p.2) : entryWFL (es.set i x) d p := by
  obtain ⟨h1, h2, h3, h4, h5⟩ := h
  refine ⟨by simp; omega, ?_, ?_, ?_, ?_⟩ <;>
    rw [getD_set_ne es i p.2 x hne] <;> assumption

theorem eventAt_eq_getD (b : Broker) (i : Nat) : eventAt b i = b.Events.getD i default := rfl

/-- Transitioning the pending request at a mapped index to any terminal
status, followed by Broker.Landed on the updated event, preserves the
ledger invariant. This is the common core of Event.RecordCompletion,
Event.RecordError and Event.RecordCancellation. -/
theorem Inv_setTerminal (b : Broker) (idx : Nat) (ev2 : Event)
    (hInv : Inv b)
    (hlen : idx < b.Events.length)
    (hID : ev2.ID = (eventAt b idx).ID)
    (hInb : ev2.Inbound = (eventAt b idx).Inbound)
    (hkreq : (eventAt b idx).Kind = EventKind.request)
    (hk2 : ev2.Kind = EventKind.request)
    (hpend : (eventAt b idx).Status = EventStatus.pending)
    (hterm : ev2.Status ≠ EventStatus.pending) :
    Inv (Broker.Landed { b with Events := b.Events.set idx ev2 } ev2) := by
  obtain ⟨⟨hWFin, hWFout, hndin, hndout⟩, hPM, hNC⟩ := hInv
  have hlook := hPM idx hlen hkreq hpend
  have hset_self : (b.Events.set idx ev2).getD idx default = ev2 :=
    getD_set_self b.Events idx ev2 hlen
  cases hdin : (eventAt b idx).Inbound with
  | true =>
    have hev2in : ev2.Inbound = true := by rw [hInb, hdin]
    have hlook2 : mapLookup b.InboundRequests (eventAt b idx).ID = some idx := by
      rw [if_pos hdin] at hlook
      exact hlook
    have hr : Broker.Landed { b with Events := b.Events.set idx ev2 } ev2 =
        Broker.mk b.Name (mapErase b.InboundRequests ev2.ID) b.OutboundRequests
          (b.Events.set idx ev2) := by
      simp [Broker.Landed, hev2in]
    rw [hr]
    have hself : eventAt (Broker.mk b.Name (mapErase b.InboundRequests ev2.ID)
        b.OutboundRequests (b.Events.set idx ev2)) idx = ev2 := by
      rw [eventAt_eq_getD]
      exact hset_self
    have hsame : ∀ j, j ≠ idx → eventAt (Broker.mk b.Name
        (mapErase b.InboundRequests ev2.ID) b.OutboundRequests (b.Events.set idx ev2)) j =
        eventAt b j := by
      intro j hj
      rw [eventAt_eq_getD, eventAt_eq_getD]
      exact getD_set_ne b.Events idx j ev2 (fun hh => hj hh.symm)
    refine ⟨⟨?_, ?_, ?_, ?_⟩, ?_, ?_⟩
    · intro p hp
      obtain ⟨hpmem, hpne⟩ := mem_mapErase _ _ _ hp
      have hwf := hWFin p hpmem
      have hpidx : idx ≠ p.2 := by
        intro hcontra
        apply hpne
        rw [hID, eventAt_eq_getD, hcontra, hwf.2.1]
      exact entryWFL_set_ne b.Events idx ev2 true p hwf hpidx
    · intro p hp
      have hwf := hWFout p hp
      have hpidx : idx ≠ p.2 := by
        intro hcontra
        have h1 := hwf.2.2.1
        rw [← hcontra, ← eventAt_eq_getD, hdin] at h1
        exact Bool.noConfusion h1
      exact entryWFL_set_ne b.Events idx ev2 false p hwf hpidx
    · exact keys_nodup_mapErase _ _ hndin
    · exact hndout
    · intro i hi hk hs
      have hi2 : i < b.Events.length := by simpa using hi
      by_cases hieq : i = idx
      · subst hieq
        rw [hself] at hs
        exact absurd hs hterm
      · rw [hsame i hieq] at hk hs ⊢
        have hold := hPM i hi2 hk hs
        rcases Bool.eq_false_or_eq_true ((eventAt b i).Inbound) with hdi | hdi
        · rw [if_pos hdi] at hold ⊢
          show mapLookup (mapErase b.InboundRequests ev2.ID) (eventAt b i).ID = some i
          have hIDne : (eventAt b i).ID ≠ ev2.ID := by
            intro hcontra
            rw [hcontra, hID] at hold
            rw [hlook2] at hold
            exact hieq (Option.some.inj hold).symm
          rw [mapLookup_mapErase_ne _ _ _ hIDne]
          exact hold
        · have hneg : ¬ ((eventAt b i).Inbound = true) := by simp [hdi]
          rw [if_neg hneg] at hold ⊢
          exact hold
    · intro i hi hk
      have hi2 : i < b.Events.length := by simpa using hi
      by_cases hieq : i = idx
      · subst hieq
        rw [hself] at hk
        rw [hk2] at hk
        exact EventKind.noConfusion hk
      · rw [hsame i hieq] at hk ⊢
        exact hNC i hi2 hk
  | false =>
    have hev2in : ev2.Inbound = false := by rw [hInb, hdin]
    have hlook2 : mapLookup b.OutboundRequests (eventAt b idx).ID = some idx := by
      rw [if_neg (by simp [hdin])] at hlook
      exact hlook
    have hr : Broker.Landed { b with Events := b.Events.set idx ev2 } ev2 =
        Broker.mk b.Name b.InboundRequests (mapErase b.OutboundRequests ev2.ID)
          (b.Events.set idx ev2) := by
      simp [Broker.Landed, hev2in]
    rw [hr]
    have hself : eventAt (Broker.mk b.Name b.InboundRequests
        (mapErase b.OutboundRequests ev2.ID) (b.Events.set idx ev2)) idx = ev2 := by
      rw [eventAt_eq_getD]
      exact hset_self
    have hsame : ∀ j, j ≠ idx → eventAt (Broker.mk b.Name b.InboundRequests
        (mapErase b.OutboundRequests ev2.ID) (b.Events.set idx ev2)) j = eventAt b j := by
      intro j hj
      rw [eventAt_eq_getD, eventAt_eq_getD]
      exact getD_set_ne b.Events idx j ev2 (fun hh => hj hh.symm)
    refine ⟨⟨?_, ?_, ?_, ?_⟩, ?_, ?_⟩
    · intro p hp
      have hwf := hWFin p hp
      have hpidx : idx ≠ p.2 := by
        intro hcontra
        have h1 := hwf.2.2.1
        rw [← hcontra, ← eventAt_eq_getD, hdin] at h1
        exact Bool.noConfusion h1
      exact entryWFL_set_ne b.Events idx ev2 true p hwf hpidx
    · intro p hp
      obtain ⟨hpmem, hpne⟩ := mem_mapErase _ _ _ hp
      have hwf := hWFout p hpmem
      have hpidx : idx ≠ p.2 := by
        intro hcontra
        apply hpne
        rw [hID, eventAt_eq_getD, hcontra, hwf.2.1]
      exact entryWFL_set_ne b.Events idx ev2 false p hwf hpidx
    · exact hndin
    · exact keys_nodup_mapErase _ _ hndout
    · intro i hi hk hs
      have hi2 : i < b.Events.length := by simpa using hi
      by_cases hieq : i = idx
      · subst hieq
        rw [hself] at hs
        exact absurd hs hterm
      · rw [hsame i hieq] at hk hs ⊢
        have hold := hPM i hi2 hk hs
        rcases Bool.eq_false_or_eq_true ((eventAt b i).Inbound) with hdi | hdi
        · rw [if_pos hdi] at hold ⊢
          exact hold
        · have hneg : ¬ ((eventAt b i).Inbound = true) := by simp [hdi]
          rw [if_neg hneg] at hold ⊢
          show mapLookup (mapErase b.OutboundRequests ev2.ID) (eventAt b i).ID = some i
          have hIDne : (eventAt b i).ID ≠ ev2.ID := by
            intro hcontra
            rw [hcontra, hID] at hold
            rw [hlook2] at hold
            exact hieq (Option.some.inj hold).symm
          rw [mapLookup_mapErase_ne _ _ _ hIDne]
          exact hold
    · intro i hi hk
      have hi2 : i < b.Events.length := by simpa using hi
      by_cases hieq : i = idx
      · subst hieq
        rw [hself] at hk
        rw [hk2] at hk
        exact EventKind.noConfusion hk
      · rw [hsame i hieq] at hk ⊢
        exact hNC i hi2 hk

theorem Inv_AddTo_notif (b : Broker) (ev : Event) (hInv : Inv b)
    (hk : ev.Kind = EventKind.notification) (hst : ev.Status = EventStatus.completed) :
    Inv (Event.AddTo ev b) := by
  obtain ⟨⟨hWFin, hWFout, hndin, hndout⟩, hPM, hNC⟩ := hInv
  rw [AddTo_notif_eq ev b hk]
  have hself : eventAt { b with Events := b.Events ++ [ev] } b.Events.length = ev := by
    rw [eventAt_eq_getD]
    exact getD_append_self b.Events ev
  have hsame : ∀ j, j < b.Events.length →
      eventAt { b with Events := b.Events ++ [ev] } j = eventAt b j := by
    intro j hj
    rw [eventAt_eq_getD, eventAt_eq_getD]
    exact getD_append_lt b.Events ev j hj
  refine ⟨⟨?_, ?_, hndin, hndout⟩, ?_, ?_⟩
  · intro p hp
    exact entryWFL_append b.Events ev true p (hWFin p hp)
  · intro p hp
    exact entryWFL_append b.Events ev false p (hWFout p hp)
  · intro i hi hk2 hs2
    have hi2 : i < b.Events.length + 1 := by simpa using hi
    by_cases hieq : i = b.Events.length
    · subst hieq
      rw [hself] at hk2
      rw [hk] at hk2
      exact EventKind.noConfusion hk2
    · have hilt : i < b.Events.length := by omega
      rw [hsame i hilt] at hk2 hs2 ⊢
      exact hPM i hilt hk2 hs2
  · intro i hi hk2
    have hi2 : i < b.Events.length + 1 := by simpa using hi
    by_cases hieq : i = b.Events.length
    · subst hieq
      rw [hself]
      exact hst
    · have hilt : i < b.Events.length := by omega
      rw [hsame i hilt] at hk2 ⊢
      exact hNC i hilt hk2

theorem Inv_AddTo_request (b : Broker) (ev : Event) (hInv : Inv b)
    (hk : ev.Kind = EventKind.request) (hst : ev.Status = EventStatus.pending)
    (hfresh : Broker.GetRequest b ev.Inbound ev.ID = none) :
    Inv (Event.AddTo ev b) := by
  obtain ⟨⟨hWFin, hWFout, hndin, hndout⟩, hPM, hNC⟩ := hInv
  rcases Bool.eq_false_or_eq_true ev.Inbound with hdir | hdir
  · -- inbound request
    rw [hdir] at hfresh
    have hfresh2 : mapLookup b.InboundRequests ev.ID = none := hfresh
    rw [AddTo_request_eq_in ev b hk hdir]
    have hself : eventAt { b with Events := b.Events ++ [ev], InboundRequests := mapInsert b.InboundRequests ev.ID b.Events.length } b.Events.length = ev := by
      rw [eventAt_eq_getD]
      exact getD_append_self b.Events ev
    have hsame : ∀ j, j < b.Events.length →
        eventAt { b with Events := b.Events ++ [ev], InboundRequests := mapInsert b.InboundRequests ev.ID b.Events.length } j = eventAt b j := by
      intro j hj
      rw [eventAt_eq_getD, eventAt_eq_getD]
      exact getD_append_lt b.Events ev j hj
    refine ⟨⟨?_, ?_, ?_, hndout⟩, ?_, ?_⟩
    · intro p hp
      rcases mem_mapInsert _ _ _ _ hp with hpe | hpm
      · subst hpe
        have hgd : (b.Events ++ [ev]).getD b.Events.length default = ev :=
          getD_append_self b.Events ev
        exact ⟨by simp, by rw [hgd], by rw [hgd]; exact hdir, by rw [hgd]; exact hk,
          by rw [hgd]; exact hst⟩
      · exact entryWFL_append b.Events ev true p (hWFin p hpm)
    · intro p hp
      exact entryWFL_append b.Events ev false p (hWFout p hp)
    · exact keys_nodup_mapInsert _ _ _ hndin
    · intro i hi hk2 hs2
      have hi2 : i < b.Events.length + 1 := by simpa using hi
      by_cases hieq : i = b.Events.length
      · subst hieq
        rw [hself]
        rw [hself] at hk2 hs2
        rw [if_pos hdir]
        show mapLookup (mapInsert b.InboundRequests ev.ID b.Events.length) ev.ID =
          some b.Events.length
        exact mapLookup_mapInsert_self _ _ _
      · have hilt : i < b.Events.length := by omega
        rw [hsame i hilt] at hk2 hs2 ⊢
        have hold := hPM i hilt hk2 hs2
        rcases Bool.eq_false_or_eq_true ((eventAt b i).Inbound) with hdi | hdi
        · rw [if_pos hdi] at hold ⊢
          show mapLookup (mapInsert b.InboundRequests ev.ID b.Events.length)
            (eventAt b i).ID = some i
          by_cases hIDeq : (eventAt b i).ID = ev.ID
          · rw [hIDeq, hfresh2] at hold
            exact Option.noConfusion hold
          · rw [mapLookup_mapInsert_ne _ _ _ _ hIDeq]
            exact hold
        · have hneg : ¬ ((eventAt b i).Inbound = true) := by simp [hdi]
          rw [if_neg hneg] at hold ⊢
          exact hold
    · intro i hi hk2
      have hi2 : i < b.Events.length + 1 := by simpa using hi
      by_cases hieq : i = b.Events.length
      · subst hieq
        rw [hself] at hk2
        rw [hk] at hk2
        exact EventKind.noConfusion hk2
      · have hilt : i < b.Events.length := by omega
        rw [hsame i hilt] at hk2 ⊢
        exact hNC i hilt hk2
  · -- outbound request
    rw [hdir] at hfresh
    have hfresh2 : mapLookup b.OutboundRequests ev.ID = none := hfresh
    rw [AddTo_request_eq_out ev b hk hdir]
    have hself : eventAt { b with Events := b.Events ++ [ev], OutboundRequests := mapInsert b.OutboundRequests ev.ID b.Events.length } b.Events.length = ev := by
      rw [eventAt_eq_getD]
      exact getD_append_self b.Events ev
    have hsame : ∀ j, j < b.Events.length →
        eventAt { b with Events := b.Events ++ [ev], OutboundRequests := mapInsert b.OutboundRequests ev.ID b.Events.length } j = eventAt b j := by
      intro j hj
      rw [eventAt_eq_getD, eventAt_eq_getD]
      exact getD_append_lt b.Events ev j hj
    refine ⟨⟨?_, ?_, hndin, ?_⟩, ?_, ?_⟩
    · intro p hp
      exact entryWFL_append b.Events ev true p (hWFin p hp)
    · intro p hp
      rcases mem_mapInsert _ _ _ _ hp with hpe | hpm
      · subst hpe
        have hgd : (b.Events ++ [ev]).getD b.Events.length default = ev :=
          getD_append_self b.Events ev
        exact ⟨by simp, by rw [hgd], by rw [hgd]; exact hdir, by rw [hgd]; exact hk,
          by rw [hgd]; exact hst⟩
      · exact entryWFL_append b.Events ev false p (hWFout p hpm)
    · exact keys_nodup_mapInsert _ _ _ hndout
    · intro i hi hk2 hs2
      have hi2 : i < b.Events.length + 1 := by simpa using hi
      by_cases hieq : i = b.Events.length
      · subst hieq
        rw [hself]
        rw [hself] at hk2 hs2
        have hneg : ¬ (ev.Inbound = true) := by simp [hdir]
        rw [if_neg hneg]
        show mapLookup (mapInsert b.OutboundRequests ev.ID b.Events.length) ev.ID =
          some b.Events.length
        exact mapLookup_mapInsert_self _ _ _
      · have hilt : i < b.Events.length := by omega
        rw [hsame i hilt] at hk2 hs2 ⊢
        have hold := hPM i hilt hk2 hs2
        rcases Bool.eq_false_or_eq_true ((eventAt b i).Inbound) with hdi | hdi
        · rw [if_pos hdi] at hold ⊢
          exact hold
        · have hneg : ¬ ((eventAt b i).Inbound = true) := by simp [hdi]
          rw [if_neg hneg] at hold ⊢
          show mapLookup (mapInsert b.OutboundRequests ev.ID b.Events.length)
            (eventAt b i).ID = some i
          by_cases hIDeq : (eventAt b i).ID = ev.ID
          · rw [hIDeq, hfresh2] at hold
            exact Option.noConfusion hold
          · rw [mapLookup_mapInsert_ne _ _ _ _ hIDeq]
            exact hold
    · intro i hi hk2
      have hi2 : i < b.Events.length + 1 := by simpa using hi
      by_cases hieq : i = b.Events.length
      · subst hieq
        rw [hself] at hk2
        rw [hk] at hk2
        exact EventKind.noConfusion hk2
      · have hilt : i < b.Events.length := by omega
        rw [hsame i hilt] at hk2 ⊢
        exact hNC i hilt hk2

theorem GetRequest_true (b : Broker) (id : Int) :
    Broker.GetRequest b true id = mapLookup b.InboundRequests id := rfl

theorem GetRequest_false (b : Broker) (id : Int) :
    Broker.GetRequest b false id = mapLookup b.OutboundRequests id := rfl

/-- One processMessage step preserves the ledger invariant, provided the
frame is not a same-direction reuse of a still-pending ID. -/
theorem Inv_processMessage (b : Broker) (d : Bool) (t : Nat) (fr : Frame)
    (hInv : Inv b) (hre : isReuse b d fr = false) : Inv (processMessage b d t fr) := by
  cases hfp : fr.parsed with
  | none =>
    rw [processMessage_parseFail b d t fr hfp]
    exact hInv
  | some msg =>
    by_cases h0 : msg.ID = 0
    · rw [processMessage_notif b d t fr msg hfp h0]
      exact Inv_AddTo_notif b _ hInv rfl rfl
    · by_cases hm : msg.Method = ""
      · cases hl : Broker.GetRequest b (!d) msg.ID with
        | none =>
          rw [processMessage_response_none b d t fr msg hfp h0 hm hl]
          exact hInv
        | some idx =>
          have hwf : entryWFL b.Events (!d) (msg.ID, idx) := by
            cases d with
            | true =>
              have hl2 : mapLookup b.OutboundRequests msg.ID = some idx := hl
              exact hInv.1.2.1 (msg.ID, idx) (mem_of_mapLookup _ _ _ hl2)
            | false =>
              have hl2 : mapLookup b.InboundRequests msg.ID = some idx := hl
              exact hInv.1.1 (msg.ID, idx) (mem_of_mapLookup _ _ _ hl2)
          obtain ⟨hlen, hID2, hInb2, hkreq, hpend⟩ := hwf
          cases he : msg.Error with
          | some e =>
            rw [processMessage_response_error b d t fr msg idx e hfp h0 hm hl he]
            rw [RecordError_eq b idx e t hlen]
            exact Inv_setTerminal b idx _ hInv hlen rfl rfl hkreq hkreq hpend
              (fun hcontra => EventStatus.noConfusion hcontra)
          | none =>
            rw [processMessage_response_completed b d t fr msg idx hfp h0 hm hl he]
            rw [RecordCompletion_eq b idx msg.Result t hlen]
            exact Inv_setTerminal b idx _ hInv hlen rfl rfl hkreq hkreq hpend
              (fun hcontra => EventStatus.noConfusion hcontra)
      · rw [processMessage_request b d t fr msg hfp h0 hm]
        apply Inv_AddTo_request b _ hInv rfl rfl
        show Broker.GetRequest b d msg.ID = none
        have hsome : (Broker.GetRequest b d msg.ID).isSome = false := by
          unfold isReuse at hre
          rw [hfp] at hre
          simp only [if_neg h0, if_neg hm] at hre
          exact hre
        cases hq : Broker.GetRequest b d msg.ID with
        | none => rfl
        | some v =>
          rw [hq] at hsome
          simp at hsome

/-- The ledger invariant holds of a fresh broker. -/
theorem Inv_newBroker (nm : String) : Inv (newBroker nm) := by
  refine ⟨⟨?_, ?_, ?_, ?_⟩, ?_, ?_⟩
  · intro p hp
    simp [newBroker] at hp
  · intro p hp
    simp [newBroker] at hp
  · simp [newBroker]
  · simp [newBroker]
  · intro i hi hk hs
    simp [newBroker] at hi
  · intro i hi hk
    simp [newBroker] at hi

/-- Running a reuse-free frame sequence preserves the ledger invariant. -/
theorem Inv_runMessages (arr : List (Bool × Frame)) : ∀ (b : Broker) (t : Nat),
    Inv b → reuseFree b t arr = true → Inv (runMessages b t arr) := by
  induction arr with
  | nil =>
    intro b t hInv _
    exact hInv
  | cons hd rest ih =>
    obtain ⟨d, fr⟩ := hd
    intro b t hInv hfree
    rw [show reuseFree b t ((d, fr) :: rest) = (!isReuse b d fr && reuseFree (processMessage b d t fr) (t + 1) rest) from rfl] at hfree
    cases hru : isReuse b d fr with
    | true =>
      rw [hru] at hfree
      simp at hfree
    | false =>
      rw [hru] at hfree
      simp only [Bool.not_false, Bool.true_and] at hfree
      rw [show runMessages b t ((d, fr) :: rest) = runMessages (processMessage b d t fr) (t + 1) rest from rfl]
      exact ih _ _ (Inv_processMessage b d t fr hInv hru) hfree

/-- Effect of the first Broker.Retire range loop: cancelling every entry
of the inbound pending map in order empties that map, cancels exactly the
events the entries point at, and changes nothing else. -/
theorem cancelAll_in_spec : ∀ (l : List (Int × Nat)) (b : Broker) (t : Nat),
    b.InboundRequests = l →
    (∀ p ∈ l, entryWFL b.Events true p) →
    ((l.map Prod.fst).Nodup) →
    (cancelAll (l.map Prod.snd) b t).InboundRequests = [] ∧
    (cancelAll (l.map Prod.snd) b t).OutboundRequests = b.OutboundRequests ∧
    (cancelAll (l.map Prod.snd) b t).Events.length = b.Events.length ∧
    (∀ p ∈ l, eventAt (cancelAll (l.map Prod.snd) b t) p.2 = cancelledOf (eventAt b p.2) t) ∧
    (∀ j, j ∉ l.map Prod.snd → eventAt (cancelAll (l.map Prod.snd) b t) j = eventAt b j) ∧
    (cancelAll (l.map Prod.snd) b t).Name = b.Name := by
  intro l
  induction l with
  | nil =>
    intro b t hmap hwf hnd
    refine ⟨hmap, rfl, rfl, ?_, ?_, rfl⟩
    · intro p hp
      cases hp
    · intro j hj
      rfl
  | cons hd tlist ih =>
    obtain ⟨k, v⟩ := hd
    intro b t hmap hwf hnd
    obtain ⟨hvlen, hvID, hvIn, hvK, hvS⟩ := hwf (k, v) (List.mem_cons_self _ _)
    rw [List.map_cons, List.nodup_cons] at hnd
    have hvID2 : (eventAt b v).ID = k := hvID
    have hvIn2 : (eventAt b v).Inbound = true := hvIn
    have htlne : ∀ p ∈ tlist, p.2 ≠ v := by
      intro p hp hcontra
      have hpw := hwf p (List.mem_cons_of_mem _ hp)
      have hpID : (eventAt b p.2).ID = p.1 := hpw.2.1
      rw [hcontra, hvID2] at hpID
      exact hnd.1 (hpID ▸ List.mem_map.mpr ⟨p, hp, rfl⟩)
    have hb2 : Broker.RecordCancellation b v t =
        Broker.mk b.Name tlist b.OutboundRequests
          (b.Events.set v (cancelledOf (eventAt b v) t)) := by
      rw [RecordCancellation_eq b v t hvlen]
      have hin2 : (cancelledOf (eventAt b v) t).Inbound = true := hvIn2
      rw [Landed_in _ _ hin2]
      have herase : mapErase b.InboundRequests (cancelledOf (eventAt b v) t).ID = tlist := by
        rw [show (cancelledOf (eventAt b v) t).ID = (eventAt b v).ID from rfl, hvID2, hmap]
        exact mapErase_cons_self tlist k v hnd.1
      rw [show ({ b with Events := b.Events.set v (cancelledOf (eventAt b v) t) } : Broker).InboundRequests = b.InboundRequests from rfl] at herase ⊢
      rw [herase]
    have hstep : cancelAll (((k, v) :: tlist).map Prod.snd) b t =
        cancelAll (tlist.map Prod.snd) (Broker.RecordCancellation b v t) t := rfl
    rw [hstep, hb2]
    set b2 : Broker := Broker.mk b.Name tlist b.OutboundRequests
      (b.Events.set v (cancelledOf (eventAt b v) t)) with hb2def
    have hsame2 : ∀ j, j ≠ v → eventAt b2 j = eventAt b j := by
      intro j hj
      rw [eventAt_eq_getD, eventAt_eq_getD]
      exact getD_set_ne b.Events v j _ (fun hh => hj hh.symm)
    have hself2 : eventAt b2 v = cancelledOf (eventAt b v) t := by
      rw [eventAt_eq_getD]
      exact getD_set_self b.Events v _ hvlen
    have hwf2 : ∀ p ∈ tlist, entryWFL b2.Events true p := by
      intro p hp
      exact entryWFL_set_ne b.Events v _ true p (hwf p (List.mem_cons_of_mem _ hp))
        (fun hh => htlne p hp hh.symm)
    obtain ⟨ih1, ih2, ih3, ih4, ih5, ih6⟩ := ih b2 t rfl hwf2 hnd.2
    refine ⟨ih1, by rw [ih2], by rw [ih3]; simp, ?_, ?_, by rw [ih6]⟩
    · intro p hp
      rcases List.mem_cons.mp hp with hpe | hpm
      · have hvnot : v ∉ tlist.map Prod.snd := by
          intro hcontra
          rcases List.mem_map.mp hcontra with ⟨q, hq, hqv⟩
          exact htlne q hq hqv
        rw [hpe]
        rw [ih5 v hvnot]
        exact hself2
      · rw [ih4 p hpm, hsame2 p.2 (htlne p hpm)]
    · intro j hj
      rw [List.map_cons, List.mem_cons] at hj
      push_neg at hj
      rw [ih5 j hj.2, hsame2 j (fun hh => hj.1 hh)]

/-- Effect of the second Broker.Retire range loop, over the outbound
pending map. -/
theorem cancelAll_out_spec : ∀ (l : List (Int × Nat)) (b : Broker) (t : Nat),
    b.OutboundRequests = l →
    (∀ p ∈ l, entryWFL b.Events false p) →
    ((l.map Prod.fst).Nodup) →
    (cancelAll (l.map Prod.snd) b t).OutboundRequests = [] ∧
    (cancelAll (l.map Prod.snd) b t).InboundRequests = b.InboundRequests ∧
    (cancelAll (l.map Prod.snd) b t).Events.length = b.Events.length ∧
    (∀ p ∈ l, eventAt (cancelAll (l.map Prod.snd) b t) p.2 = cancelledOf (eventAt b p.2) t) ∧
    (∀ j, j ∉ l.map Prod.snd → eventAt (cancelAll (l.map Prod.snd) b t) j = eventAt b j) ∧
    (cancelAll (l.map Prod.snd) b t).Name = b.Name := by
  intro l
  induction l with
  | nil =>
    intro b t hmap hwf hnd
    refine ⟨hmap, rfl, rfl, ?_, ?_, rfl⟩
    · intro p hp
      cases hp
    · intro j hj
      rfl
  | cons hd tlist ih =>
    obtain ⟨k, v⟩ := hd
    intro b t hmap hwf hnd
    obtain ⟨hvlen, hvID, hvIn, hvK, hvS⟩ := hwf (k, v) (List.mem_cons_self _ _)
    rw [List.map_cons, List.nodup_cons] at hnd
    have hvID2 : (eventAt b v).ID = k := hvID
    have hvIn2 : (eventAt b v).Inbound = false := hvIn
    have htlne : ∀ p ∈ tlist, p.2 ≠ v := by
      intro p hp hcontra
      have hpw := hwf p (List.mem_cons_of_mem _ hp)
      have hpID : (eventAt b p.2).ID = p.1 := hpw.2.1
      rw [hcontra, hvID2] at hpID
      exact hnd.1 (hpID ▸ List.mem_map.mpr ⟨p, hp, rfl⟩)
    have hb2 : Broker.RecordCancellation b v t =
        Broker.mk b.Name b.InboundRequests tlist
          (b.Events.set v (cancelledOf (eventAt b v) t)) := by
      rw [RecordCancellation_eq b v t hvlen]
      have hin2 : (cancelledOf (eventAt b v) t).Inbound = false := hvIn2
      rw [Landed_out _ _ hin2]
      have herase : mapErase b.OutboundRequests (cancelledOf (eventAt b v) t).ID = tlist := by
        rw [show (cancelledOf (eventAt b v) t).ID = (eventAt b v).ID from rfl, hvID2, hmap]
        exact mapErase_cons_self tlist k v hnd.1
      rw [show ({ b with Events := b.Events.set v (cancelledOf (eventAt b v) t) } : Broker).OutboundRequests = b.OutboundRequests from rfl] at herase ⊢
      rw [herase]
    have hstep : cancelAll (((k, v) :: tlist).map Prod.snd) b t =
        cancelAll (tlist.map Prod.snd) (Broker.RecordCancellation b v t) t := rfl
    rw [hstep, hb2]
    set b2 : Broker := Broker.mk b.Name b.InboundRequests tlist
      (b.Events.set v (cancelledOf (eventAt b v) t)) with hb2def
    have hsame2 : ∀ j, j ≠ v → eventAt b2 j = eventAt b j := by
      intro j hj
      rw [eventAt_eq_getD, eventAt_eq_getD]
      exact getD_set_ne b.Events v j _ (fun hh => hj hh.symm)
    have hself2 : eventAt b2 v = cancelledOf (eventAt b v) t := by
      rw [eventAt_eq_getD]
      exact getD_set_self b.Events v _ hvlen
    have hwf2 : ∀ p ∈ tlist, entryWFL b2.Events false p := by
      intro p hp
      exact entryWFL_set_ne b.Events v _ false p (hwf p (List.mem_cons_of_mem _ hp))
        (fun hh => htlne p hp hh.symm)
    obtain ⟨ih1, ih2, ih3, ih4, ih5, ih6⟩ := ih b2 t rfl hwf2 hnd.2
    refine ⟨ih1, by rw [ih2], by rw [ih3]; simp, ?_, ?_, by rw [ih6]⟩
    · intro p hp
      rcases List.mem_cons.mp hp with hpe | hpm
      · have hvnot : v ∉ tlist.map Prod.snd := by
          intro hcontra
          rcases List.mem_map.mp hcontra with ⟨q, hq, hqv⟩
          exact htlne q hq hqv
        rw [hpe]
        rw [ih5 v hvnot]
        exact hself2
      · rw [ih4 p hpm, hsame2 p.2 (htlne p hpm)]
    · intro j hj
      rw [List.map_cons, List.mem_cons] at hj
      push_neg at hj
      rw [ih5 j hj.2, hsame2 j (fun hh => hj.1 hh)]

/-- Full effect of Broker.Retire on a well-formed broker: both pending
maps end empty, every record the maps still held is cancelled with its
end timestamp set, and every other event is untouched. -/
theorem Retire_spec (b : Broker) (t : Nat) (hWF : BrokerWF b) :
    (Broker.Retire b t).InboundRequests = [] ∧
    (Broker.Retire b t).OutboundRequests = [] ∧
    (Broker.Retire b t).Events.length = b.Events.length ∧
    (∀ p ∈ b.InboundRequests, eventAt (Broker.Retire b t) p.2 = cancelledOf (eventAt b p.2) t) ∧
    (∀ p ∈ b.OutboundRequests, eventAt (Broker.Retire b t) p.2 = cancelledOf (eventAt b p.2) t) ∧
    (∀ j, j ∉ b.InboundRequests.map Prod.snd → j ∉ b.OutboundRequests.map Prod.snd →
      eventAt (Broker.Retire b t) j = eventAt b j) := by
  obtain ⟨hWFin, hWFout, hndin, hndout⟩ := hWF
  obtain ⟨p1, p2, p3, p4, p5, p6⟩ := cancelAll_in_spec b.InboundRequests b t rfl hWFin hndin
  set b1 := cancelAll (b.InboundRequests.map Prod.snd) b t with hb1
  have hdisj : ∀ q ∈ b.OutboundRequests, q.2 ∉ b.InboundRequests.map Prod.snd := by
    intro q hq hcontra
    rcases List.mem_map.mp hcontra with ⟨p, hp, hpq⟩
    have h1 : (eventAt b p.2).Inbound = true := (hWFin p hp).2.2.1
    have h2 : (eventAt b q.2).Inbound = false := (hWFout q hq).2.2.1
    rw [hpq] at h1
    rw [h1] at h2
    exact Bool.noConfusion h2
  have hdisj2 : ∀ p ∈ b.InboundRequests, p.2 ∉ b.OutboundRequests.map Prod.snd := by
    intro p hp hcontra
    rcases List.mem_map.mp hcontra with ⟨q, hq, hqp⟩
    have h1 : (eventAt b q.2).Inbound = false := (hWFout q hq).2.2.1
    have h2 : (eventAt b p.2).Inbound = true := (hWFin p hp).2.2.1
    rw [hqp] at h1
    rw [h1] at h2
    exact Bool.noConfusion h2
  have hwf2 : ∀ q ∈ b.OutboundRequests, entryWFL b1.Events false q := by
    intro q hq
    obtain ⟨hqlen, hqID, hqIn, hqK, hqS⟩ := hWFout q hq
    have hsame := p5 q.2 (hdisj q hq)
    refine ⟨?_, ?_, ?_, ?_, ?_⟩
    · rw [show b1.Events.length = b.Events.length from p3]
      exact hqlen
    · show (eventAt b1 q.2).ID = q.1
      rw [hsame]
      exact hqID
    · show (eventAt b1 q.2).Inbound = false
      rw [hsame]
      exact hqIn
    · show (eventAt b1 q.2).Kind = EventKind.request
      rw [hsame]
      exact hqK
    · show (eventAt b1 q.2).Status = EventStatus.pending
      rw [hsame]
      exact hqS
  obtain ⟨q1, q2, q3, q4, q5, q6⟩ := cancelAll_out_spec b.OutboundRequests b1 t p2 hwf2 hndout
  have hret : Broker.Retire b t = cancelAll (b.OutboundRequests.map Prod.snd) b1 t := by
    rw [← p2]
    rfl
  refine ⟨?_, ?_, ?_, ?_, ?_, ?_⟩
  · rw [hret, q2, p1]
  · rw [hret]
    exact q1
  · rw [hret, q3, p3]
  · intro p hp
    rw [hret, q5 p.2 (hdisj2 p hp)]
    exact p4 p hp
  · intro q hq
    rw [hret, q4 q hq]
    rw [p5 q.2 (hdisj q hq)]
  · intro j hj1 hj2
    rw [hret, q5 j hj2, p5 j hj1]

/-! ### Helper lemmas for the claim theorems -/

theorem eventAt_Landed (b : Broker) (ev : Event) (i : Nat) :
    eventAt (Broker.Landed b ev) i = eventAt b i := by
  unfold Broker.Landed
  split <;> rfl

theorem entry_of_GetRequest (b : Broker) (dd : Bool) (id : Int) (idx : Nat)
    (hWF : BrokerWF b) (hl : Broker.GetRequest b dd id = some idx) :
    entryWFL b.Events dd (id, idx) := by
  cases dd with
  | true => exact hWF.1 (id, idx) (mem_of_mapLookup _ _ _ hl)
  | false => exact hWF.2.1 (id, idx) (mem_of_mapLookup _ _ _ hl)

/-- When processMessage sees a response frame whose ID is pending in the
opposite direction, the result is the terminal update of that record
followed by its removal from the map. -/
theorem processMessage_resolves (b : Broker) (d : Bool) (t : Nat) (fr : Frame)
    (msg : RpcMessage) (idx : Nat) (hp : fr.parsed = some msg) (h0 : msg.ID ≠ 0)
    (hm : msg.Method = "") (hl : Broker.GetRequest b (!d) msg.ID = some idx)
    (hlen : idx < b.Events.length) :
    ∃ ev2 : Event,
      processMessage b d t fr = Broker.Landed { b with Events := b.Events.set idx ev2 } ev2 ∧
      ev2.Inbound = (eventAt b idx).Inbound ∧ ev2.ID = (eventAt b idx).ID ∧
      ev2.Kind = (eventAt b idx).Kind ∧ ev2.Status ≠ EventStatus.pending ∧
      ev2.EndTime = some t := by
  cases he : msg.Error with
  | some e =>
    refine ⟨erroredOf (eventAt b idx) e t, ?_, rfl, rfl, rfl,
      fun hc => EventStatus.noConfusion hc, rfl⟩
    rw [processMessage_response_error b d t fr msg idx e hp h0 hm hl he,
      RecordError_eq b idx e t hlen]
  | none =>
    refine ⟨completedOf (eventAt b idx) msg.Result t, ?_, rfl, rfl, rfl,
      fun hc => EventStatus.noConfusion hc, rfl⟩
    rw [processMessage_response_completed b d t fr msg idx hp h0 hm hl he,
      RecordCompletion_eq b idx msg.Result t hlen]

theorem GetRequest_Landed_self (b : Broker) (ev2 : Event) (dd : Bool)
    (hin : ev2.Inbound = dd) : Broker.GetRequest (Broker.Landed b ev2) dd ev2.ID = none := by
  cases dd with
  | true =>
    rw [Landed_in _ _ hin]
    show mapLookup (mapErase b.InboundRequests ev2.ID) ev2.ID = none
    exact mapLookup_mapErase_self _ _
  | false =>
    rw [Landed_out _ _ hin]
    show mapLookup (mapErase b.OutboundRequests ev2.ID) ev2.ID = none
    exact mapLookup_mapErase_self _ _

theorem eventAt_resolved_self (b : Broker) (ev2 : Event) (idx : Nat)
    (hlen : idx < b.Events.length) :
    eventAt (Broker.Landed { b with Events := b.Events.set idx ev2 } ev2) idx = ev2 := by
  rw [eventAt_Landed, eventAt_eq_getD]
  exact getD_set_self b.Events idx ev2 hlen

theorem eventAt_resolved_other (b : Broker) (ev2 : Event) (idx j : Nat) (hne : idx ≠ j) :
    eventAt (Broker.Landed { b with Events := b.Events.set idx ev2 } ev2) j = eventAt b j := by
  rw [eventAt_Landed, eventAt_eq_getD, eventAt_eq_getD]
  exact getD_set_ne b.Events idx j ev2 hne

/-- A retire on a broker whose maps are already empty changes nothing. -/
theorem Retire_empty (b : Broker) (t : Nat) (h1 : b.InboundRequests = [])
    (h2 : b.OutboundRequests = []) : Broker.Retire b t = b := by
  unfold Broker.Retire
  rw [h1]
  show cancelAll ((b.OutboundRequests).map Prod.snd) b t = b
  rw [h2]
  rfl

theorem sendLine_out (w : BufWriter) (line : String) :
    (sendLine w line).out = w.out ++ w.buffered ++ [line, "\n"] ∧
    (sendLine w line).buffered = [] := by
  simp [sendLine, BufWriter.write, BufWriter.flush]

theorem framesChunks_cons_same (d : Bool) (fr : Frame) (rest : List (Bool × Frame)) :
    framesChunks d ((d, fr) :: rest) = fr.raw :: "\n" :: framesChunks d rest := by
  simp [framesChunks]

theorem framesChunks_cons_other (d d0 : Bool) (fr : Frame) (rest : List (Bool × Frame))
    (h : d0 ≠ d) : framesChunks d ((d0, fr) :: rest) = framesChunks d rest := by
  simp [framesChunks, h]

/-- The statements of the ledger invariant claim, derived for any broker
satisfying the invariant: a pending request sits in the map of its own
direction at its own index and in the other map nowhere; a request that
left pending and a notification sit in neither map; retiring empties both
maps and leaves no pending record. -/
theorem Inv_consequences (b : Broker) (t2 : Nat) (hInv : Inv b) :
    (∀ i, i < b.Events.length → (eventAt b i).Kind = EventKind.request →
      (eventAt b i).Status = EventStatus.pending →
      mapLookup (if (eventAt b i).Inbound then b.InboundRequests else b.OutboundRequests)
        (eventAt b i).ID = some i ∧
      (∀ p ∈ (if (eventAt b i).Inbound then b.OutboundRequests else b.InboundRequests),
        p.2 ≠ i)) ∧
    (∀ i, i < b.Events.length → (eventAt b i).Kind = EventKind.request →
      (eventAt b i).Status ≠ EventStatus.pending →
      (∀ p ∈ b.InboundRequests, p.2 ≠ i) ∧ (∀ p ∈ b.OutboundRequests, p.2 ≠ i)) ∧
    (∀ i, i < b.Events.length → (eventAt b i).Kind = EventKind.notification →
      (∀ p ∈ b.InboundRequests, p.2 ≠ i) ∧ (∀ p ∈ b.OutboundRequests, p.2 ≠ i)) ∧
    (Broker.Retire b t2).InboundRequests = [] ∧
    (Broker.Retire b t2).OutboundRequests = [] ∧
    (∀ i, i < (Broker.Retire b t2).Events.length →
      (eventAt (Broker.Retire b t2) i).Status ≠ EventStatus.pending) := by
  obtain ⟨hWF, hPM, hNC⟩ := hInv
  obtain ⟨r1, r2, r3, r4, r5, r6⟩ := Retire_spec b t2 hWF
  obtain ⟨hWFin, hWFout, hndin, hndout⟩ := hWF
  refine ⟨?_, ?_, ?_, r1, r2, ?_⟩
  · intro i hi hk hs
    refine ⟨hPM i hi hk hs, ?_⟩
    rcases Bool.eq_false_or_eq_true ((eventAt b i).Inbound) with hdi | hdi
    · rw [if_pos hdi]
      intro p hp hcontra
      have h1 : (eventAt b p.2).Inbound = false := (hWFout p hp).2.2.1
      rw [hcontra, hdi] at h1
      exact Bool.noConfusion h1
    · have hneg : ¬ ((eventAt b i).Inbound = true) := by simp [hdi]
      rw [if_neg hneg]
      intro p hp hcontra
      have h1 : (eventAt b p.2).Inbound = true := (hWFin p hp).2.2.1
      rw [hcontra, hdi] at h1
      exact Bool.noConfusion h1
  · intro i hi hk hs
    constructor
    · intro p hp hcontra
      have h1 : (eventAt b p.2).Status = EventStatus.pending := (hWFin p hp).2.2.2.2
      rw [hcontra] at h1
      exact hs h1
    · intro p hp hcontra
      have h1 : (eventAt b p.2).Status = EventStatus.pending := (hWFout p hp).2.2.2.2
      rw [hcontra] at h1
      exact hs h1
  · intro i hi hk
    constructor
    · intro p hp hcontra
      have h1 : (eventAt b p.2).Kind = EventKind.request := (hWFin p hp).2.2.2.1
      rw [hcontra, hk] at h1
      exact EventKind.noConfusion h1
    · intro p hp hcontra
      have h1 : (eventAt b p.2).Kind = EventKind.request := (hWFout p hp).2.2.2.1
      rw [hcontra, hk] at h1
      exact EventKind.noConfusion h1
  · intro i hi
    rw [r3] at hi
    by_cases hmem1 : ∃ p ∈ b.InboundRequests, p.2 = i
    · obtain ⟨p, hp, hpi⟩ := hmem1
      rw [← hpi, r4 p hp]
      intro hcontra
      exact EventStatus.noConfusion hcontra
    · by_cases hmem2 : ∃ p ∈ b.OutboundRequests, p.2 = i
      · obtain ⟨p, hp, hpi⟩ := hmem2
        rw [← hpi, r5 p hp]
        intro hcontra
        exact EventStatus.noConfusion hcontra
      · have hn1 : i ∉ b.InboundRequests.map Prod.snd := by
          intro hc
          rcases List.mem_map.mp hc with ⟨p, hp, hpi⟩
          exact hmem1 ⟨p, hp, hpi⟩
        have hn2 : i ∉ b.OutboundRequests.map Prod.snd := by
          intro hc
          rcases List.mem_map.mp hc with ⟨p, hp, hpi⟩
          exact hmem2 ⟨p, hp, hpi⟩
        rw [r6 i hn1 hn2]
        cases hk : (eventAt b i).Kind with
        | request =>
          intro hs
          have hlk := hPM i hi hk hs
          rcases Bool.eq_false_or_eq_true ((eventAt b i).Inbound) with hdi | hdi
          · rw [if_pos hdi] at hlk
            exact hmem1 ⟨((eventAt b i).ID, i), mem_of_mapLookup _ _ _ hlk, rfl⟩
          · have hneg : ¬ ((eventAt b i).Inbound = true) := by simp [hdi]
            rw [if_neg hneg] at hlk
            exact hmem2 ⟨((eventAt b i).ID, i), mem_of_mapLookup _ _ _ hlk, rfl⟩
        | notification =>
          rw [hNC i hi hk]
          intro hcontra
          exact EventStatus.noConfusion hcontra

/-! ### Concrete fixtures used by witnesses and counterexamples -/

/-- A request envelope with the given ID and method (other fields nil). -/
def reqMsg (id : Int) (m : String) : RpcMessage :=
  RpcMessage.mk "2.0" id m none none none

/-- A response envelope carrying a result payload. -/
def respMsg (id : Int) (r : String) : RpcMessage :=
  RpcMessage.mk "2.0" id "" none (some r) none

/-! ### Claim C1 -/

/-- C1: after a successful handshake, every frame received from either
peer is forwarded verbatim to the opposite transport, followed by one
newline chunk, in per-direction arrival order; the forwarded output
depends only on the direction and raw text of each frame, never on its
parse outcome, so an unparsable frame is forwarded exactly like any
other (parse failure skips tracking but never forwarding). -/
theorem C1_relay_transparency (st : RelayState) (t : Nat) (arrivals : List (Bool × Frame))
    (hc : st.clientW.buffered = []) (hs : st.serverW.buffered = []) :
    (relayRun st t arrivals).clientW.out = st.clientW.out ++ framesChunks true arrivals ∧
    (relayRun st t arrivals).serverW.out = st.serverW.out ++ framesChunks false arrivals ∧
    (relayRun st t arrivals).clientW.buffered = [] ∧
    (relayRun st t arrivals).serverW.buffered = [] := by
  induction arrivals generalizing st t with
  | nil =>
    exact ⟨by simp [relayRun, framesChunks], by simp [relayRun, framesChunks], hc, hs⟩
  | cons hd rest ih =>
    obtain ⟨d, fr⟩ := hd
    rw [show relayRun st t ((d, fr) :: rest) = relayRun (relayStep st t d fr) (t + 1) rest
      from rfl]
    cases d with
    | true =>
      have hstep : relayStep st t true fr =
          RelayState.mk (processMessage st.broker true t fr) (sendLine st.clientW fr.raw)
            st.serverW := by
        simp [relayStep]
      rw [hstep]
      obtain ⟨hsl1, hsl2⟩ := sendLine_out st.clientW fr.raw
      obtain ⟨ih1, ih2, ih3, ih4⟩ := ih (RelayState.mk (processMessage st.broker true t fr)
        (sendLine st.clientW fr.raw) st.serverW) (t + 1) hsl2 hs
      refine ⟨?_, ?_, ih3, ih4⟩
      · rw [ih1]
        show (sendLine st.clientW fr.raw).out ++ framesChunks true rest =
          st.clientW.out ++ framesChunks true ((true, fr) :: rest)
        rw [hsl1, hc, framesChunks_cons_same]
        simp
      · rw [ih2]
        show st.serverW.out ++ framesChunks false rest =
          st.serverW.out ++ framesChunks false ((true, fr) :: rest)
        rw [framesChunks_cons_other false true fr rest (by simp)]
    | false =>
      have hstep : relayStep st t false fr =
          RelayState.mk (processMessage st.broker false t fr) st.clientW
            (sendLine st.serverW fr.raw) := by
        simp [relayStep]
      rw [hstep]
      obtain ⟨hsl1, hsl2⟩ := sendLine_out st.serverW fr.raw
      obtain ⟨ih1, ih2, ih3, ih4⟩ := ih (RelayState.mk (processMessage st.broker false t fr)
        st.clientW (sendLine st.serverW fr.raw)) (t + 1) hc hsl2
      refine ⟨?_, ?_, ih3, ih4⟩
      · rw [ih1]
        show st.clientW.out ++ framesChunks true rest =
          st.clientW.out ++ framesChunks true ((false, fr) :: rest)
        rw [framesChunks_cons_other true false fr rest (by simp)]
      · rw [ih2]
        show (sendLine st.serverW fr.raw).out ++ framesChunks false rest =
          st.serverW.out ++ framesChunks false ((false, fr) :: rest)
        rw [hsl1, hs, framesChunks_cons_same]
        simp

/-- Arrivals for the C1 witness: a client request, an unparsable frame
from the server, and a server response. -/
def C1wFrames : List (Bool × Frame) :=
  [(false, Frame.mk "alpha" (some (reqMsg 1 "Sum"))),
   (true, Frame.mk "not json" none),
   (true, Frame.mk "beta" (some (respMsg 1 "3")))]

/-- C1 witness: the transparency theorem applied at a concrete three frame
interleaving that includes an unparsable frame. -/
theorem C1_relay_transparency_witness :
    (relayRun (RelayState.mk (newBroker "w1") (BufWriter.mk [] []) (BufWriter.mk [] [])) 0
      C1wFrames).clientW.out = ["not json", "\n", "beta", "\n"] ∧
    (relayRun (RelayState.mk (newBroker "w1") (BufWriter.mk [] []) (BufWriter.mk [] [])) 0
      C1wFrames).serverW.out = ["alpha", "\n"] := by
  have h := C1_relay_transparency
    (RelayState.mk (newBroker "w1") (BufWriter.mk [] []) (BufWriter.mk [] [])) 0 C1wFrames rfl rfl
  refine ⟨?_, ?_⟩
  · rw [h.1]
    decide
  · rw [h.2.1]
    decide

/-! ### Claim C9 -/

/-- A representative marshalled handshake error reply payload. -/
def C9errPayload : String :=
  "\x7b\"jsonrpc\":\"2.0\",\"id\":1,\"error\":\x7b\"code\":-32600,\"message\":\"expected Proxy.Connect\"\x7d\x7d"

/-- C9 counterexample: the claim says every frame the engine writes,
handshake error replies included, ends with a trailing newline; but the
replyError path of handleConn writes the marshalled error object and
flushes without ever writing a newline byte, so its flushed output holds
no newline chunk at all. -/
theorem C9_counterexample :
    (replyError (BufWriter.mk [] []) C9errPayload).out = [C9errPayload] ∧
    "\n" ∉ (replyError (BufWriter.mk [] []) C9errPayload).out := by
  constructor
  · rfl
  · decide

/-- C9 (amended): relayed frames (sendLine) and the handshake success
reply are each written as their payload followed by a newline chunk and
are fully flushed before the engine proceeds; the handshake error reply
is written and flushed in the same synchronous way but without the
trailing newline. -/
theorem C9_amended_write_discipline (w : BufWriter) (line payload : String) :
    (sendLine w line).out = w.out ++ w.buffered ++ [line, "\n"] ∧
    (sendLine w line).buffered = [] ∧
    (writeConnectResponse w payload).out = w.out ++ w.buffered ++ [payload, "\n"] ∧
    (writeConnectResponse w payload).buffered = [] ∧
    (replyError w payload).out = w.out ++ w.buffered ++ [payload] ∧
    (replyError w payload).buffered = [] := by
  refine ⟨?_, ?_, ?_, ?_, ?_, ?_⟩ <;>
    simp [sendLine, writeConnectResponse, replyError, BufWriter.write, BufWriter.flush]

/-- C9 witness: the amended write-discipline theorem applied to a
concrete writer and payloads. -/
theorem C9_amended_write_discipline_witness :
    (sendLine (BufWriter.mk [] []) "x").out = ([] : List String) ++ [] ++ ["x", "\n"] ∧
    (replyError (BufWriter.mk [] []) "y").out = ([] : List String) ++ [] ++ ["y"] := by
  have h := C9_amended_write_discipline (BufWriter.mk [] []) "x" "y"
  exact ⟨h.1, h.2.2.2.2.1⟩

/-! ### Claim C2 -/

/-- The handshake request of the failing input: a valid 2.0 Proxy.Connect
request whose params field is absent (nil pointer after unmarshal). -/
def C2connectNoParams : RpcMessage :=
  RpcMessage.mk "2.0" 1 "Proxy.Connect" none none none

/-- A relayed notification with ID 0, method Log and absent params. -/
def C2logMsg : RpcMessage :=
  RpcMessage.mk "2.0" 0 "Log" none none none

/-- The Log notification above as a wire frame. -/
def C2logFrame : Frame := Frame.mk "logline" (some C2logMsg)

/-- C2: the claim says one connection-handling invocation never panics on
remote-peer-caused input. The code contradicts it: a handshake frame with
absent params makes handleConn dereference the nil Params pointer and
panic (first conjunct). The other input the claim names behaves as the
claim says, for a subtle reason: the Log notification with absent params
panics inside Event.String (second conjunct), but that panic is raised
under the fmt package, which recovers panics from String methods and
substitutes a placeholder (third conjunct), so the relay loop keeps
running and still forwards the frame (fourth conjunct). -/
theorem C2_panic_on_nil_params :
    (handshake (some (Frame.mk "hs" (some C2connectNoParams))) (fun _ => none)
      (fun _ => false)).outcome = HsOutcome.panicNilParams ∧
    Event.String (fun _ => "") (notifEvent C2logMsg true 0) = none ∧
    fmtRenderValue (fun _ => "") (notifEvent C2logMsg true 0) = fmtPanicPlaceholder ∧
    (relayRun (RelayState.mk (newBroker "c2") (BufWriter.mk [] []) (BufWriter.mk [] [])) 0
      [(true, C2logFrame)]).clientW.out = ["logline", "\n"] := by
  refine ⟨?_, rfl, rfl, ?_⟩ <;> decide

/-! ### Claim C5 -/

/-- A Proxy.Connect request whose params bytes do not decode to a target
address (the decode parameter rejects them). -/
def C5badParams : RpcMessage :=
  RpcMessage.mk "2.0" 1 "Proxy.Connect" (some "zzz") none none

/-- C5: the claim says a Proxy.Connect request with missing or malformed
params gets a -32602 reply before the connection aborts, without a dial.
For malformed-but-present params the code does exactly that (second
conjunct: reply -32602, no dial). For absent params it does not: it
panics on the nil Params dereference, replying nothing (first conjunct),
which is the code bug recorded for this claim. -/
theorem C5_invalid_params_handling :
    handshake (some (Frame.mk "hs1" (some C2connectNoParams))) (fun _ => none)
      (fun _ => false) = HsResult.mk HsOutcome.panicNilParams none ∧
    handshake (some (Frame.mk "hs2" (some C5badParams))) (fun _ => none)
      (fun _ => false) = HsResult.mk (HsOutcome.replyAbort RpcCodeInvalidParams) none := by
  constructor <;> decide

/-! ### Claim C6 -/

/-- A syntactically valid handshake frame whose protocol-version tag is
not 2.0. -/
def C6versionMsg : RpcMessage :=
  RpcMessage.mk "1.0" 7 "Proxy.Connect" (some "p") none none

/-- C6 counterexample: the claim says a first frame with a wrong
protocol-version tag gets a -32600 error reply before the abort. It does
not: handleConn checks the version tag before the replyError closure even
exists, logs, and returns silently — no reply of any code is written. -/
theorem C6_counterexample :
    (handshake (some (Frame.mk "hs3" (some C6versionMsg))) (fun _ => some "a")
      (fun _ => true)).outcome = HsOutcome.abortSilent ∧
    replyWritten (handshake (some (Frame.mk "hs3" (some C6versionMsg))) (fun _ => some "a")
      (fun _ => true)).outcome = none ∧
    HsOutcome.abortSilent ≠ HsOutcome.replyAbort RpcCodeInvalidRequest := by
  refine ⟨?_, ?_, ?_⟩ <;> decide

/-- C6 (amended): a first frame that parses but whose version tag is not
2.0 makes the engine abort silently — no reply and no dial; only a frame
with the right version tag but a method other than Proxy.Connect gets the
-32600 invalid-request reply before the abort. -/
theorem C6_amended_version_mismatch (fr : Frame) (msg : RpcMessage)
    (dec : String → Option String) (dial : String → Bool) (hp : fr.parsed = some msg) :
    (msg.JSONRPC ≠ "2.0" →
      handshake (some fr) dec dial = HsResult.mk HsOutcome.abortSilent none) ∧
    (msg.JSONRPC = "2.0" → msg.Method ≠ "Proxy.Connect" →
      handshake (some fr) dec dial =
        HsResult.mk (HsOutcome.replyAbort RpcCodeInvalidRequest) none) := by
  constructor
  · intro hv
    simp [handshake, hp, hv]
  · intro hv hm
    simp [handshake, hp, hv, hm]

/-- C6 witness: the amended theorem applied to the concrete version-tag
mismatch frame and to a concrete wrong-method frame. -/
theorem C6_amended_version_mismatch_witness :
    handshake (some (Frame.mk "w61" (some C6versionMsg))) (fun _ => some "a")
      (fun _ => true) = HsResult.mk HsOutcome.abortSilent none ∧
    handshake (some (Frame.mk "w62" (some (reqMsg 1 "Other")))) (fun _ => some "a")
      (fun _ => true) = HsResult.mk (HsOutcome.replyAbort RpcCodeInvalidRequest) none := by
  refine ⟨(C6_amended_version_mismatch _ C6versionMsg _ _ rfl).1 (by decide),
    (C6_amended_version_mismatch _ (reqMsg 1 "Other") _ _ rfl).2 rfl (by decide)⟩

/-! ### Claim C3 -/

/-- C3: for a response frame (nonzero ID, no method) arriving on one
transport against a well-formed ledger: when its ID is pending in the
opposite direction at index idx, the record at idx was pending and becomes
the errored record capturing the error when the frame carries one, or the
completed record capturing the result otherwise; the entry is removed
from the opposite pending map, and replaying the same response frame
changes nothing further, so the transition happens exactly once; a
response whose ID is not pending in the opposite map changes no record
and no map. The direction parameter d covers both the outbound-request
and the symmetric inbound-request case. -/
theorem C3_response_resolution (b : Broker) (d : Bool) (t t2 : Nat) (fr : Frame)
    (msg : RpcMessage) (hp : fr.parsed = some msg) (hid : msg.ID ≠ 0)
    (hm : msg.Method = "") (hInv : Inv b) :
    (∀ idx, Broker.GetRequest b (!d) msg.ID = some idx →
      (eventAt b idx).Status = EventStatus.pending ∧
      (∀ e, msg.Error = some e →
        eventAt (processMessage b d t fr) idx = erroredOf (eventAt b idx) e t) ∧
      (msg.Error = none →
        eventAt (processMessage b d t fr) idx = completedOf (eventAt b idx) msg.Result t) ∧
      Broker.GetRequest (processMessage b d t fr) (!d) msg.ID = none ∧
      processMessage (processMessage b d t fr) d t2 fr = processMessage b d t fr) ∧
    (Broker.GetRequest b (!d) msg.ID = none → processMessage b d t fr = b) := by
  constructor
  · intro idx hl
    obtain ⟨hlen, hID2, hInb2, hkreq, hpend⟩ := entry_of_GetRequest b (!d) msg.ID idx hInv.1 hl
    have hID3 : (eventAt b idx).ID = msg.ID := hID2
    have hInb3 : (eventAt b idx).Inbound = !d := hInb2
    have h4 : Broker.GetRequest (processMessage b d t fr) (!d) msg.ID = none := by
      obtain ⟨ev2, heq, hInbe, hIDe, hKe, hSte, hEte⟩ :=
        processMessage_resolves b d t fr msg idx hp hid hm hl hlen
      rw [heq]
      have hIDm : msg.ID = ev2.ID := by rw [hIDe, hID3]
      rw [hIDm]
      exact GetRequest_Landed_self _ ev2 (!d) (by rw [hInbe]; exact hInb3)
    refine ⟨hpend, ?_, ?_, h4, processMessage_response_none _ d t2 fr msg hp hid hm h4⟩
    · intro e he
      rw [processMessage_response_error b d t fr msg idx e hp hid hm hl he,
        RecordError_eq b idx e t hlen]
      exact eventAt_resolved_self b _ idx hlen
    · intro he
      rw [processMessage_response_completed b d t fr msg idx hp hid hm hl he,
        RecordCompletion_eq b idx msg.Result t hlen]
      exact eventAt_resolved_self b _ idx hlen
  · intro hl
    exact processMessage_response_none b d t fr msg hp hid hm hl

/-- Fixture for the C3 witness: one outbound request with ID 5. -/
def C3wReq : Frame := Frame.mk "qSum" (some (reqMsg 5 "Sum"))

/-- Broker state of the C3 witness after registering the request. -/
def C3wB : Broker := runMessages (newBroker "w3") 0 [(false, C3wReq)]

/-- The response envelope of the C3 witness. -/
def C3wMsg : RpcMessage := respMsg 5 "9"

/-- The response frame of the C3 witness, arriving inbound. -/
def C3wResp : Frame := Frame.mk "aSum" (some C3wMsg)

/-- C3 witness: the resolution theorem applied to a concrete outbound
request with ID 5 resolved by a concrete inbound response. -/
theorem C3_response_resolution_witness :
    (eventAt C3wB 0).Status = EventStatus.pending ∧
    eventAt (processMessage C3wB true 1 C3wResp) 0 = completedOf (eventAt C3wB 0) (some "9") 1 ∧
    Broker.GetRequest (processMessage C3wB true 1 C3wResp) false 5 = none := by
  have hInv : Inv C3wB :=
    Inv_runMessages [(false, C3wReq)] (newBroker "w3") 0 (Inv_newBroker "w3") (by decide)
  have h := (C3_response_resolution C3wB true 1 2 C3wResp C3wMsg rfl (by decide) rfl hInv).1
    0 (by decide)
  exact ⟨h.1, h.2.2.1 rfl, h.2.2.2.1⟩

/-! ### Claim C8 -/

/-- C8: when the same numeric ID X is pending in both directions (at log
indices i inbound and o outbound), the two records are distinct, a
response arriving on the inbound transport resolves only the outbound
record o — the inbound record i and its map entry are untouched — and
symmetrically a response arriving on the outbound transport resolves only
the inbound record i, leaving o and its entry untouched. -/
theorem C8_direction_independence (b : Broker) (X : Int) (i o : Nat) (t : Nat)
    (fr : Frame) (msg : RpcMessage)
    (hp : fr.parsed = some msg) (hidX : msg.ID = X) (hX0 : X ≠ 0) (hm : msg.Method = "")
    (hInv : Inv b)
    (hin : mapLookup b.InboundRequests X = some i)
    (hout : mapLookup b.OutboundRequests X = some o) :
    i ≠ o ∧
    eventAt (processMessage b true t fr) i = eventAt b i ∧
    mapLookup (processMessage b true t fr).InboundRequests X = some i ∧
    (eventAt (processMessage b true t fr) o).Status ≠ EventStatus.pending ∧
    eventAt (processMessage b false t fr) o = eventAt b o ∧
    mapLookup (processMessage b false t fr).OutboundRequests X = some o ∧
    (eventAt (processMessage b false t fr) i).Status ≠ EventStatus.pending := by
  have h0 : msg.ID ≠ 0 := by rw [hidX]; exact hX0
  obtain ⟨hleni, hIDi, hInbi, hKi, hSi⟩ := hInv.1.1 (X, i) (mem_of_mapLookup _ _ _ hin)
  obtain ⟨hleno, hIDo, hInbo, hKo, hSo⟩ := hInv.1.2.1 (X, o) (mem_of_mapLookup _ _ _ hout)
  have hInbi2 : (eventAt b i).Inbound = true := hInbi
  have hInbo2 : (eventAt b o).Inbound = false := hInbo
  have hio : i ≠ o := by
    intro hcontra
    rw [hcontra] at hInbi2
    rw [hInbi2] at hInbo2
    exact Bool.noConfusion hInbo2
  have hlo : Broker.GetRequest b (!true) msg.ID = some o := by
    show mapLookup b.OutboundRequests msg.ID = some o
    rw [hidX]
    exact hout
  obtain ⟨ev2, heq2, hInbe2, hIDe2, hKe2, hSte2, hEte2⟩ :=
    processMessage_resolves b true t fr msg o hp h0 hm hlo hleno
  have hli : Broker.GetRequest b (!false) msg.ID = some i := by
    show mapLookup b.InboundRequests msg.ID = some i
    rw [hidX]
    exact hin
  obtain ⟨ev3, heq3, hInbe3, hIDe3, hKe3, hSte3, hEte3⟩ :=
    processMessage_resolves b false t fr msg i hp h0 hm hli hleni
  have hInbe2f : ev2.Inbound = false := by rw [hInbe2]; exact hInbo2
  have hInbe3t : ev3.Inbound = true := by rw [hInbe3]; exact hInbi2
  refine ⟨hio, ?_, ?_, ?_, ?_, ?_, ?_⟩
  · rw [heq2]
    exact eventAt_resolved_other b ev2 o i (fun hh => hio hh.symm)
  · rw [heq2, Landed_out _ _ hInbe2f]
    exact hin
  · rw [heq2, eventAt_resolved_self b ev2 o hleno]
    exact hSte2
  · rw [heq3]
    exact eventAt_resolved_other b ev3 i o hio
  · rw [heq3, Landed_in _ _ hInbe3t]
    exact hout
  · rw [heq3, eventAt_resolved_self b ev3 i hleni]
    exact hSte3

/-- Arrivals for the C8 witness: ID 5 used independently by both peers. -/
def C8wArr : List (Bool × Frame) :=
  [(false, Frame.mk "qa" (some (reqMsg 5 "A"))), (true, Frame.mk "qb" (some (reqMsg 5 "B")))]

/-- Broker state of the C8 witness: ID 5 pending in both directions. -/
def C8wB : Broker := runMessages (newBroker "w8") 0 C8wArr

/-- The response envelope of the C8 witness. -/
def C8wMsg : RpcMessage := respMsg 5 "ok"

/-- The response frame of the C8 witness. -/
def C8wResp : Frame := Frame.mk "r8" (some C8wMsg)

/-- C8 witness: the direction-independence theorem applied to the
concrete broker holding inbound ID 5 at index 1 and outbound ID 5 at
index 0, with the response arriving inbound. -/
theorem C8_direction_independence_witness :
    eventAt (processMessage C8wB true 2 C8wResp) 1 = eventAt C8wB 1 ∧
    mapLookup (processMessage C8wB true 2 C8wResp).InboundRequests 5 = some 1 ∧
    (eventAt (processMessage C8wB true 2 C8wResp) 0).Status ≠ EventStatus.pending := by
  have hInv : Inv C8wB :=
    Inv_runMessages C8wArr (newBroker "w8") 0 (Inv_newBroker "w8") (by decide)
  have h := C8_direction_independence C8wB 5 1 0 2 C8wResp C8wMsg rfl rfl (by decide) rfl
    hInv (by decide) (by decide)
  exact ⟨h.2.1, h.2.2.1, h.2.2.2.1⟩

/-! ### Claim C10 -/

/-- C10: a response that matches a pending request in the opposite
direction and carries both a non-null error object and a result payload
is recorded through the error path: the record becomes the errored record
capturing the error, and its Result field is left exactly as it was — the
result payload of the response is never recorded. -/
theorem C10_error_precedence (b : Broker) (d : Bool) (t : Nat) (fr : Frame)
    (msg : RpcMessage) (idx : Nat) (e : RpcError) (r : String)
    (hp : fr.parsed = some msg) (h0 : msg.ID ≠ 0) (hm : msg.Method = "")
    (he : msg.Error = some e) (hres : msg.Result = some r)
    (hInv : Inv b) (hl : Broker.GetRequest b (!d) msg.ID = some idx) :
    eventAt (processMessage b d t fr) idx = erroredOf (eventAt b idx) e t ∧
    (eventAt (processMessage b d t fr) idx).Status = EventStatus.errored ∧
    (eventAt (processMessage b d t fr) idx).Error = some e ∧
    (eventAt (processMessage b d t fr) idx).Result = (eventAt b idx).Result := by
  obtain ⟨hlen, hID2, hInb2, hkreq, hpend⟩ := entry_of_GetRequest b (!d) msg.ID idx hInv.1 hl
  have hev : eventAt (processMessage b d t fr) idx = erroredOf (eventAt b idx) e t := by
    rw [processMessage_response_error b d t fr msg idx e hp h0 hm hl he,
      RecordError_eq b idx e t hlen]
    exact eventAt_resolved_self b _ idx hlen
  exact ⟨hev, by rw [hev]; rfl, by rw [hev]; rfl, by rw [hev]; rfl⟩

/-- Arrivals for the C10 witness: one outbound request with ID 5. -/
def C10wArr : List (Bool × Frame) := [(false, Frame.mk "qx" (some (reqMsg 5 "X")))]

/-- Broker state of the C10 witness. -/
def C10wB : Broker := runMessages (newBroker "wa") 0 C10wArr

/-- A response carrying both an error object and a result payload. -/
def C10wMsg : RpcMessage :=
  RpcMessage.mk "2.0" 5 "" none (some "val") (some (RpcError.mk (-3) "boom" none))

/-- The C10 witness response frame. -/
def C10wResp : Frame := Frame.mk "r10" (some C10wMsg)

/-- C10 witness: the error-precedence theorem applied to a concrete
response carrying both error and result. -/
theorem C10_error_precedence_witness :
    eventAt (processMessage C10wB true 1 C10wResp) 0 =
      erroredOf (eventAt C10wB 0) (RpcError.mk (-3) "boom" none) 1 ∧
    (eventAt (processMessage C10wB true 1 C10wResp) 0).Result = (eventAt C10wB 0).Result := by
  have hInv : Inv C10wB :=
    Inv_runMessages C10wArr (newBroker "wa") 0 (Inv_newBroker "wa") (by decide)
  have h := C10_error_precedence C10wB true 1 C10wResp C10wMsg 0
    (RpcError.mk (-3) "boom" none) "val" rfl (by decide) rfl rfl rfl hInv (by decide)
  exact ⟨h.1, h.2.2.2⟩

/-! ### Claim C7 -/

/-- C7: on teardown, Broker.Retire transitions every record still present
in either pending map from pending to cancelled with its end timestamp
set, after which both pending maps are empty; and the transition happens
exactly once — retiring the already-retired broker changes nothing. -/
theorem C7_teardown_cancellation (b : Broker) (t t2 : Nat) (hWF : BrokerWF b) :
    (Broker.Retire b t).InboundRequests = [] ∧
    (Broker.Retire b t).OutboundRequests = [] ∧
    (∀ p ∈ b.InboundRequests ++ b.OutboundRequests,
      (eventAt b p.2).Status = EventStatus.pending ∧
      eventAt (Broker.Retire b t) p.2 = cancelledOf (eventAt b p.2) t ∧
      (eventAt (Broker.Retire b t) p.2).Status = EventStatus.cancelled ∧
      (eventAt (Broker.Retire b t) p.2).EndTime = some t) ∧
    Broker.Retire (Broker.Retire b t) t2 = Broker.Retire b t := by
  obtain ⟨r1, r2, r3, r4, r5, r6⟩ := Retire_spec b t hWF
  refine ⟨r1, r2, ?_, Retire_empty _ t2 r1 r2⟩
  intro p hp
  rcases List.mem_append.mp hp with hp1 | hp2
  · have hpend : (eventAt b p.2).Status = EventStatus.pending := (hWF.1 p hp1).2.2.2.2
    have hc := r4 p hp1
    exact ⟨hpend, hc, by rw [hc]; rfl, by rw [hc]; rfl⟩
  · have hpend : (eventAt b p.2).Status = EventStatus.pending := (hWF.2.1 p hp2).2.2.2.2
    have hc := r5 p hp2
    exact ⟨hpend, hc, by rw [hc]; rfl, by rw [hc]; rfl⟩

/-- Arrivals for the C7 witness: one pending request per direction. -/
def C7wArr : List (Bool × Frame) :=
  [(false, Frame.mk "qa" (some (reqMsg 1 "A"))), (true, Frame.mk "qb" (some (reqMsg 2 "B")))]

/-- Broker state of the C7 witness: two pending requests. -/
def C7wB : Broker := runMessages (newBroker "w7") 0 C7wArr

/-- C7 witness: the teardown theorem applied to the concrete broker with
one pending request in each direction. -/
theorem C7_teardown_cancellation_witness :
    (Broker.Retire C7wB 9).InboundRequests = [] ∧
    (Broker.Retire C7wB 9).OutboundRequests = [] ∧
    (eventAt (Broker.Retire C7wB 9) 0).Status = EventStatus.cancelled ∧
    Broker.Retire (Broker.Retire C7wB 9) 11 = Broker.Retire C7wB 9 := by
  have hWF : BrokerWF C7wB :=
    (Inv_runMessages C7wArr (newBroker "w7") 0 (Inv_newBroker "w7") (by decide)).1
  have h := C7_teardown_cancellation C7wB 9 11 hWF
  refine ⟨h.1, h.2.1, ?_, h.2.2.2⟩
  exact (h.2.2.1 (1, 0) (by decide)).2.2.1

/-! ### Claim C4 -/

/-- Arrivals refuting C4 as stated: the client sends two requests with
the same ID 1 while the first is still pending. -/
def C4xArr : List (Bool × Frame) :=
  [(false, Frame.mk "a" (some (reqMsg 1 "A"))), (false, Frame.mk "b" (some (reqMsg 1 "B")))]

/-- The broker reached by the C4 counterexample arrivals. -/
def C4xB : Broker := runMessages (newBroker "x4") 0 C4xArr

/-- C4 counterexample: the claim asserts the exactly-one-map invariant
for every sequence of frames, explicitly including same-direction ID
reuse while the first request is pending. After the reuse sequence, the
record at log index 0 is a request still pending, yet the outbound map
holds only index 1 (the overwriting second request) and the inbound map
is empty, so the pending record 0 is present in no map — the invariant
fails exactly as the reuse overwrites the map entry. -/
theorem C4_counterexample :
    (eventAt C4xB 0).Kind = EventKind.request ∧
    (eventAt C4xB 0).Status = EventStatus.pending ∧
    C4xB.InboundRequests = [] ∧
    C4xB.OutboundRequests = [(1, 1)] := by
  refine ⟨?_, ?_, ?_, ?_⟩ <;> decide

/-- C4 (amended): for every sequence of frames processed from a fresh
broker in which no request reuses a same-direction ID that is still
pending, the ledger satisfies the claimed invariant: every pending
request record is found in the pending map of its own direction under its
own ID and is referenced by no entry of the other map; a request record
whose status has left pending, and a notification record, are referenced
by neither map; and after the retire operation both maps are empty and no
record is pending. -/
theorem C4_invariant_amended (nm : String) (arrivals : List (Bool × Frame)) (t2 : Nat)
    (b : Broker) (hb : b = runMessages (newBroker nm) 0 arrivals)
    (hfree : reuseFree (newBroker nm) 0 arrivals = true) :
    (∀ i, i < b.Events.length → (eventAt b i).Kind = EventKind.request →
      (eventAt b i).Status = EventStatus.pending →
      mapLookup (if (eventAt b i).Inbound then b.InboundRequests else b.OutboundRequests)
        (eventAt b i).ID = some i ∧
      (∀ p ∈ (if (eventAt b i).Inbound then b.OutboundRequests else b.InboundRequests),
        p.2 ≠ i)) ∧
    (∀ i, i < b.Events.length → (eventAt b i).Kind = EventKind.request →
      (eventAt b i).Status ≠ EventStatus.pending →
      (∀ p ∈ b.InboundRequests, p.2 ≠ i) ∧ (∀ p ∈ b.OutboundRequests, p.2 ≠ i)) ∧
    (∀ i, i < b.Events.length → (eventAt b i).Kind = EventKind.notification →
      (∀ p ∈ b.InboundRequests, p.2 ≠ i) ∧ (∀ p ∈ b.OutboundRequests, p.2 ≠ i)) ∧
    (Broker.Retire b t2).InboundRequests = [] ∧
    (Broker.Retire b t2).OutboundRequests = [] ∧
    (∀ i, i < (Broker.Retire b t2).Events.length →
      (eventAt (Broker.Retire b t2) i).Status ≠ EventStatus.pending) := by
  have hInv : Inv b := by
    rw [hb]
    exact Inv_runMessages arrivals (newBroker nm) 0 (Inv_newBroker nm) hfree
  exact Inv_consequences b t2 hInv

/-- Arrivals for the C4 witness: one outbound request, no reuse. -/
def C4wArr : List (Bool × Frame) := [(false, Frame.mk "q" (some (reqMsg 7 "Q")))]

/-- Broker state of the C4 witness. -/
def C4wB : Broker := runMessages (newBroker "w4") 0 C4wArr

/-- C4 witness: the amended invariant theorem applied to a concrete
reuse-free sequence. -/
theorem C4_invariant_amended_witness :
    mapLookup (if (eventAt C4wB 0).Inbound then C4wB.InboundRequests
      else C4wB.OutboundRequests) (eventAt C4wB 0).ID = some 0 ∧
    (Broker.Retire C4wB 3).InboundRequests = [] ∧
    (Broker.Retire C4wB 3).OutboundRequests = [] := by
  have h := C4_invariant_amended "w4" C4wArr 3 C4wB rfl (by decide)
  exact ⟨(h.1 0 (by decide) (by decide) (by decide)).1, h.2.2.2.1, h.2.2.2.2.1⟩

end Teacup
